import Mathlib

/-!
# Framed file transfer over one byte stream (`0qm4.go`)

A shallow embedding of the receiver loop `handleConnection` and of the sender
(`sendFile`, `sendFolder`) of `0qm4.go`, together with the Go library routines
they call (`bufio.Reader.ReadString`, `strings.TrimSpace`, `strings.Split`,
`strconv.ParseInt`, `io.CopyN`, `filepath.Clean/Join/Dir`, `filepath.Walk`).

Conventions.
* A byte is a natural number; a Go `string` or byte stream is a `List Nat`.
* The connection is a finite byte sequence ended by a clean close, so every
  read error the receiver can see is `io.EOF`.
* Paths are Unix paths (separator `/`, no volume name).
* The file system the receiver writes to is a pair of oracles saying whether
  `os.MkdirAll` and `os.Create` succeed; the effect of a session is the log of
  the files it created, in order, each with the bytes copied into it.
-/

namespace Transfer

/-! ## Bytes -/

/-- Bytes of an ASCII string literal (one byte per character). -/
def ascii (s : String) : List Nat := s.data.map Char.toNat

/-- The byte of the line feed, the delimiter handed to `ReadString`. -/
def NL : Nat := 10

/-- The byte of the colon, the separator handed to `strings.Split`. -/
def COLON : Nat := 58

/-- The byte of the slash, `filepath.Separator` on Unix. -/
def SLASH : Nat := 47

/-- The byte of the full stop, the hidden-entry marker. -/
def DOT : Nat := 46

/-! ## `strings.TrimSpace` -/

/-- UTF-8 encodings of the runes for which `unicode.IsSpace` holds: the six ASCII
ones, U+0085, U+00A0, U+1680, U+2000..U+200A, U+2028, U+2029, U+202F, U+205F and
U+3000. A rune decoded by Go (forwards or backwards) is a space exactly when the
bytes it was decoded from are one of these. -/
def spaceEncodings : List (List Nat) :=
  [[9], [10], [11], [12], [13], [32],
   [0xC2, 0x85], [0xC2, 0xA0],
   [0xE1, 0x9A, 0x80],
   [0xE2, 0x80, 0x80], [0xE2, 0x80, 0x81], [0xE2, 0x80, 0x82], [0xE2, 0x80, 0x83],
   [0xE2, 0x80, 0x84], [0xE2, 0x80, 0x85], [0xE2, 0x80, 0x86], [0xE2, 0x80, 0x87],
   [0xE2, 0x80, 0x88], [0xE2, 0x80, 0x89], [0xE2, 0x80, 0x8A],
   [0xE2, 0x80, 0xA8], [0xE2, 0x80, 0xA9], [0xE2, 0x80, 0xAF],
   [0xE2, 0x81, 0x9F],
   [0xE3, 0x80, 0x80]]

/-- The space rune the string starts with, if it starts with one. -/
def leadingSpace (s : List Nat) : Option (List Nat) :=
  spaceEncodings.find? (fun e => e.isPrefixOf s)

/-- The space rune the string ends with, if it ends with one. -/
def trailingSpace (s : List Nat) : Option (List Nat) :=
  spaceEncodings.find? (fun e => e.reverse.isPrefixOf s.reverse)

/-- Loop of `strings.TrimLeftFunc(s, unicode.IsSpace)`: drop space runes from the
front while there is one. Every step drops at least one byte, so `s.length`
rounds are always enough. -/
def trimLeftLoop : Nat → List Nat → List Nat
  | 0, s => s
  | k + 1, s =>
    match leadingSpace s with
    | none => s
    | some e => trimLeftLoop k (s.drop e.length)

/-- Loop of `strings.TrimRightFunc(s, unicode.IsSpace)`: drop space runes from the
back while there is one. -/
def trimRightLoop : Nat → List Nat → List Nat
  | 0, s => s
  | k + 1, s =>
    match trailingSpace s with
    | none => s
    | some e => trimRightLoop k (s.take (s.length - e.length))

/-- Go `strings.TrimLeftFunc(s, unicode.IsSpace)`. -/
def TrimLeft (s : List Nat) : List Nat := trimLeftLoop s.length s

/-- Go `strings.TrimRightFunc(s, unicode.IsSpace)`. -/
def TrimRight (s : List Nat) : List Nat := trimRightLoop s.length s

/-- Go `strings.TrimSpace`: the string without its leading and trailing white
space, the left end trimmed first. -/
def TrimSpace (s : List Nat) : List Nat := TrimRight (TrimLeft s)

/-! ## `strings.Split`, `bufio.Reader.ReadString` -/

/-- Go `strings.Split(s, sep)` for a one-byte separator: the pieces between
every two occurrences of `sep`; one more piece than there are separators. -/
def Split (s : List Nat) (sep : Nat) : List (List Nat) :=
  match s with
  | [] => [[]]
  | c :: cs =>
    if c = sep then [] :: Split cs sep
    else
      match Split cs sep with
      | [] => [[c]]
      | p :: ps => (c :: p) :: ps

/-- Go `bufio.Reader.ReadString(delim)` on what is left of the stream: the bytes
up to and including the first `delim` together with the rest of the stream, or
`none` when the stream ends first (the call then returns `io.EOF`). -/
def ReadString (delim : Nat) : List Nat → Option (List Nat × List Nat)
  | [] => none
  | c :: cs =>
    if c = delim then some ([c], cs)
    else
      match ReadString delim cs with
      | none => none
      | some (line, rest) => some (c :: line, rest)

/-! ## `strconv.ParseInt(s, 10, 64)` -/

/-- Largest `uint64`. -/
def maxUint64 : Nat := 2 ^ 64 - 1

/-- Digit loop of `strconv.ParseUint(s, 10, 64)`: every byte must be a decimal
digit (a letter is a digit not below the base, an underscore is only legal for
base 0), and the value must stay within `uint64`. -/
def parseUintLoop : List Nat → Nat → Option Nat
  | [], n => some n
  | c :: cs, n =>
    if 48 ≤ c ∧ c ≤ 57 then
      if n * 10 + (c - 48) > maxUint64 then none
      else parseUintLoop cs (n * 10 + (c - 48))
    else none

/-- Go `strconv.ParseUint(s, 10, 64)`; `none` stands for any error. -/
def ParseUint (s : List Nat) : Option Nat :=
  if s = [] then none else parseUintLoop s 0

/-- Go `strconv.ParseInt(s, 10, 64)`; `none` stands for any error. One leading
`+` or `-` is picked off, the rest is parsed unsigned and checked against the
`int64` range. -/
def ParseInt (s : List Nat) : Option Int :=
  match s with
  | [] => none
  | c :: cs =>
    let neg : Bool := decide (c = 45)
    let body := if c = 43 ∨ c = 45 then cs else c :: cs
    match ParseUint body with
    | none => none
    | some un =>
      if !neg && decide (un ≥ 2 ^ 63) then none
      else if neg && decide (un > 2 ^ 63) then none
      else some (if neg then -(un : Int) else (un : Int))

/-! ## `io.CopyN` -/

/-- Result of `io.CopyN(file, reader, n)`: the bytes written to the file, what is
left of the stream, and whether the call returned a nil error. -/
structure Copied where
  written : List Nat
  rest : List Nat
  ok : Bool
deriving DecidableEq, Repr

/-- Go `io.CopyN(dst, src, n)` reading from the stream. For `n ≤ 0` the limited
reader is at its end at once: nothing is read and the error is nil. For `n > 0`
exactly `n` bytes are copied when the stream has them; otherwise all that is
left is copied and the call returns `io.EOF`. -/
def CopyN (src : List Nat) (n : Int) : Copied :=
  if n ≤ 0 then ⟨[], src, true⟩
  else if n.toNat ≤ src.length then ⟨src.take n.toNat, src.drop n.toNat, true⟩
  else ⟨src, [], false⟩

/-! ## `filepath.Clean`, `filepath.Join`, `filepath.Dir` -/

/-- The pieces joined with slashes. -/
def joinSlash : List (List Nat) → List Nat
  | [] => []
  | [c] => c
  | c :: cs => c ++ SLASH :: joinSlash cs

/-- One round of the loop of `filepath.Clean` on the next path element. The
elements kept so far are held last first. An empty element and `.` are dropped;
`..` removes the last kept element when that is a real one, is dropped at the
root of a rooted path, and is kept otherwise; a real element is kept. -/
def cleanStep (rooted : Bool) (kept : List (List Nat)) (elem : List Nat) :
    List (List Nat) :=
  if elem = [] ∨ elem = [DOT] then kept
  else if elem = [DOT, DOT] then
    match kept with
    | [] => if rooted then [] else [[DOT, DOT]]
    | top :: below => if top = [DOT, DOT] then elem :: kept else below
  else elem :: kept

/-- Elements of the cleaned path, first first. -/
def cleanElems (path : List Nat) : List (List Nat) :=
  ((Split path SLASH).foldl (cleanStep (path.head? = some SLASH)) []).reverse

/-- Go `filepath.Clean` on Unix. -/
def Clean (path : List Nat) : List Nat :=
  if path = [] then [DOT]
  else if path.head? = some SLASH then SLASH :: joinSlash (cleanElems path)
  else if cleanElems path = [] then [DOT]
  else joinSlash (cleanElems path)

/-- Go `filepath.Join(a, b)`: the first non-empty argument starts the path, the
rest is appended after a separator, and the result is cleaned. -/
def Join (a b : List Nat) : List Nat :=
  if a ≠ [] then Clean (a ++ SLASH :: b)
  else if b ≠ [] then Clean b
  else []

/-- Length of the part of the path up to and including its last separator. -/
def dirLen : List Nat → Nat
  | [] => 0
  | c :: cs => if SLASH ∈ c :: cs then 1 + dirLen cs else 0

/-- Go `filepath.Dir`: the path up to its last separator, cleaned. -/
def Dir (path : List Nat) : List Nat := Clean (path.take (dirLen path))

/-! ## The receiver -/

/-- The file system as the receiver sees it: whether `os.MkdirAll(dir, 0755)` and
`os.Create(path)` succeed. -/
structure FileSys where
  mkdirAll : List Nat → Bool
  create : List Nat → Bool

/-- A file system on which every directory and file can be created. -/
def FileSys.permissive : FileSys := ⟨fun _ => true, fun _ => true⟩

/-- How a receive session ends: `finished` is the `break` at end of stream
followed by the message `Transfer finished!`; each other value is one of the
`return` statements of the loop that print an error. -/
inductive Outcome where
  | finished
  | invalidMetadata
  | invalidSize
  | mkdirError
  | createError
  | writeError
deriving DecidableEq, Repr

/-- What a receive session did: the files it created, in order, each with its
full path and the bytes copied into it, and how the session ended. -/
structure Session where
  files : List (List Nat × List Nat)
  outcome : Outcome
deriving DecidableEq, Repr

/-- A session that ends at once. -/
def Session.stop (o : Outcome) : Session := ⟨[], o⟩

/-- The session that first creates file `f` and then goes on as `s`. -/
def Session.after (f : List Nat × List Nat) (s : Session) : Session :=
  ⟨f :: s.files, s.outcome⟩

/-- Lines 30 to 40 of `handleConnection`: trim the line, split it on every colon,
require exactly two fields, parse the second as the size. -/
def decodeHeader (line : List Nat) : Except Outcome (List Nat × Int) :=
  match Split (TrimSpace line) COLON with
  | [relpath, field] =>
    match ParseInt field with
    | none => .error .invalidSize
    | some size => .ok (relpath, size)
  | _ => .error .invalidMetadata

/-- The loop of `handleConnection`; the first argument bounds the number of
rounds. `none` means the bound was reached. -/
def handleLoop (fs : FileSys) (outputDir : List Nat) : Nat → List Nat → Option Session
  | 0, _ => none
  | fuel + 1, conn =>
    match ReadString NL conn with
    | none => some (Session.stop .finished)
    | some (line, rest) =>
      match decodeHeader line with
      | .error e => some (Session.stop e)
      | .ok (relpath, size) =>
        let fullpath := Join outputDir relpath
        if fs.mkdirAll (Dir fullpath) = false then some (Session.stop .mkdirError)
        else if fs.create fullpath = false then some (Session.stop .createError)
        else
          let c := CopyN rest size
          if c.ok = false then some ⟨[(fullpath, c.written)], .writeError⟩
          else (handleLoop fs outputDir fuel c.rest).map (Session.after (fullpath, c.written))

/-- Receiver `handleConnection(conn, outputDir)` of `0qm4.go` on the bytes the
connection delivers. Every round of the loop consumes at least the newline of
its header line, so one round more than there are bytes is always enough. -/
def handleConnection (fs : FileSys) (outputDir : List Nat) (conn : List Nat) :
    Option Session :=
  handleLoop fs outputDir (conn.length + 1) conn

/-! ## The sender -/

/-- Loop of the decimal formatting of a non-negative integer (`%d`): the digits
are produced last first; the first argument bounds the number of rounds. -/
def decimalLoop : Nat → Nat → List Nat → List Nat
  | 0, _, acc => acc
  | fuel + 1, n, acc =>
    if n < 10 then (48 + n) :: acc
    else decimalLoop fuel (n / 10) ((48 + n % 10) :: acc)

/-- Decimal digits of `n` as `fmt.Fprintf` writes them for `%d`. -/
def formatDecimal (n : Nat) : List Nat := decimalLoop (n + 1) n []

/-- The header line `fmt.Fprintf(conn, "%s:%d\n", rel, size)`. -/
def header (rel : List Nat) (size : Nat) : List Nat :=
  rel ++ COLON :: (formatDecimal size ++ [NL])

/-- A directory tree as `filepath.Walk` sees it: regular files with their
content, and directories with their entries in the order `Walk` visits them
(sorted by name). -/
inductive Entry where
  | file (name : List Nat) (content : List Nat)
  | dir (name : List Nat) (children : List Entry)

/-- Name of an entry, `info.Name()`. -/
def Entry.name : Entry → List Nat
  | .file n _ => n
  | .dir n _ => n

/-- Whether an entry is a directory, `info.IsDir()`. -/
def Entry.isDir : Entry → Bool
  | .file _ _ => false
  | .dir _ _ => true

/-- Go `filepath.Rel(folder, path)` for a path that `Walk` reached from `folder`
through the directories and entry named in `below`: the names joined by the
separator, and `.` for the folder itself. -/
def relOf (below : List (List Nat)) : List Nat :=
  if below = [] then [DOT] else joinSlash below

/-- Sender `sendFile(conn, baseDir, path)`: the bytes written to the connection
for the entry at `path`, whose path relative to `baseDir` is `rel`. A directory
is ignored; for a file the header line is written and then the content. -/
def sendFile (rel : List Nat) : Entry → List Nat
  | .dir _ _ => []
  | .file _ content => header rel content.length ++ content

/-- Bytes the sender writes for a sequence of files, each given by its relative
path and content: one `sendFile` after the other on the same connection. -/
def sendFiles : List (List Nat × List Nat) → List Nat
  | [] => []
  | f :: fs => sendFile f.1 (.file f.1 f.2) ++ sendFiles fs

/-- What a walk function tells `filepath.Walk`: go on (`nil`) or `SkipDir`. -/
inductive Signal where
  | nil
  | skipDir
deriving DecidableEq, Repr

/-- Whether a name begins with `.`, `strings.HasPrefix(info.Name(), ".")`. -/
def hidden (name : List Nat) : Bool := name.head? = some DOT

/-- The function literal `sendFolder` hands to `filepath.Walk`: the bytes it
writes for one visited entry and what it returns. -/
def visit (below : List (List Nat)) (e : Entry) : List Nat × Signal :=
  if hidden e.name then
    if e.isDir then ([], .skipDir) else ([], .nil)
  else if e.isDir then ([], .nil)
  else (sendFile (relOf below) e, .nil)

mutual
/-- Go `filepath.walk`: the function is called on the entry; a directory for
which it returned nil is then walked entry by entry. -/
def walk (fn : List (List Nat) → Entry → List Nat × Signal) (below : List (List Nat)) :
    Entry → List Nat × Signal
  | .file n c => fn below (.file n c)
  | .dir n cs =>
    match fn below (.dir n cs) with
    | (out, .nil) =>
      match walkNames fn below cs with
      | (out2, sig) => (out ++ out2, sig)
    | (out, sig) => (out, sig)
/-- The loop of `filepath.walk` over the names of a directory: a `SkipDir` that
comes back from a directory is swallowed, one that comes back from a file ends
the loop and is handed up. -/
def walkNames (fn : List (List Nat) → Entry → List Nat × Signal) (below : List (List Nat)) :
    List Entry → List Nat × Signal
  | [] => ([], .nil)
  | e :: es =>
    match walk fn (below ++ [e.name]) e with
    | (out, .nil) =>
      match walkNames fn below es with
      | (out2, sig) => (out ++ out2, sig)
    | (out, .skipDir) =>
      if e.isDir then
        match walkNames fn below es with
        | (out2, sig) => (out ++ out2, sig)
      else (out, .skipDir)
end

/-- A frame as it lies on the stream: the header line without its newline, the
relative path and the payload that follows the newline. -/
structure Frame where
  line : List Nat
  path : List Nat
  payload : List Nat

/-- Bytes of a frame: header line, newline, payload. -/
def Frame.bytes (fr : Frame) : List Nat := fr.line ++ NL :: fr.payload

/-- A frame is complete and well formed when its header line is one line, the
receiver decodes it to the frame's relative path and to a length, and the
payload has exactly that length. -/
def Frame.wellFormed (fr : Frame) : Prop :=
  NL ∉ fr.line ∧
    (decodeHeader (fr.line ++ [NL])).toOption = some (fr.path, (fr.payload.length : Int))

instance (fr : Frame) : Decidable fr.wellFormed := by
  unfold Frame.wellFormed; infer_instance

/-- The file system lets the receiver create the file at `rel` under the output
directory: both `os.MkdirAll` and `os.Create` succeed. -/
def accepts (fs : FileSys) (outputDir rel : List Nat) : Prop :=
  fs.mkdirAll (Dir (Join outputDir rel)) = true ∧ fs.create (Join outputDir rel) = true

instance (fs : FileSys) (outputDir rel : List Nat) : Decidable (accepts fs outputDir rel) := by
  unfold accepts; infer_instance

/-- Bytes of a sequence of frames, one after the other. -/
def streamOf : List Frame → List Nat
  | [] => []
  | fr :: frs => fr.bytes ++ streamOf frs

/-- The files a session writes for a sequence of frames: for each frame the
file at the output directory joined with the frame's path, holding its payload. -/
def written (outputDir : List Nat) (frames : List Frame) : List (List Nat × List Nat) :=
  frames.map (fun fr => (Join outputDir fr.path, fr.payload))

/-- The session that first creates the files `fs` and then goes on as `s`. -/
def Session.afterAll (fs : List (List Nat × List Nat)) (s : Session) : Session :=
  ⟨fs ++ s.files, s.outcome⟩

/-- A file the sender can frame so that the receiver reads it back: its relative
path has no colon, no newline and no leading white space, and its length is an
`int64` file size. -/
def framable (f : List Nat × List Nat) : Prop :=
  COLON ∉ f.1 ∧ NL ∉ f.1 ∧ leadingSpace f.1 = none ∧ f.2.length < 2 ^ 63

instance (f : List Nat × List Nat) : Decidable (framable f) := by
  unfold framable; infer_instance

/-- The frame `sendFile` writes for a file. -/
def frameOf (f : List Nat × List Nat) : Frame :=
  ⟨f.1 ++ COLON :: formatDecimal f.2.length, f.1, f.2⟩

/-- The files the receiver writes for the files sent: each under the output
directory at its relative path, with its content. -/
def received (outputDir : List Nat) (files : List (List Nat × List Nat)) :
    List (List Nat × List Nat) :=
  files.map (fun f => (Join outputDir f.1, f.2))

/-! ## Malformed header lines -/

/-- Whether a byte is a decimal digit. -/
def isDigit (c : Nat) : Bool := decide (48 ≤ c ∧ c ≤ 57)

/-- Whether a text is a decimal integer: an optional sign followed by one or
more decimal digits. -/
def isDecimalInteger (s : List Nat) : Bool :=
  match s with
  | [] => false
  | c :: cs =>
    if c = 43 ∨ c = 45 then !cs.isEmpty && cs.all isDigit
    else (c :: cs).all isDigit

/-- The text after the first colon. -/
def afterColon (s : List Nat) : List Nat := (s.dropWhile (fun c => c != COLON)).drop 1

/-- A header line is malformed when, trimmed, it has no colon or more than one,
or when the text after its single colon is not a decimal integer. -/
def malformed (line : List Nat) : Bool :=
  decide ((TrimSpace line).count COLON ≠ 1) || !isDecimalInteger (afterColon (TrimSpace line))

/-- The error the receiver reports for a malformed header line. -/
def malformedError (line : List Nat) : Outcome :=
  if (TrimSpace line).count COLON ≠ 1 then .invalidMetadata else .invalidSize

/-- The last byte of the text is not a decimal digit (and there is one). -/
def endsOffDigits (e : List Nat) : Bool :=
  match e.reverse with
  | [] => false
  | x :: _ => decide (x < 48 ∨ 57 < x)

/-! ## Definitions that follow the specification -/

/-- Specification side of the header decoding: the header is split once, at its
first colon; what precedes is the relative path and everything after it is the
length field. `none` when there is no colon. -/
def splitFirstColon : List Nat → Option (List Nat × List Nat)
  | [] => none
  | c :: cs =>
    if c = COLON then some ([], cs)
    else
      match splitFirstColon cs with
      | none => none
      | some (p, f) => some (c :: p, f)

/-- Specification side of the length field: the value of a run of decimal digits
read from the left, `none` when a byte is not a decimal digit. -/
def parseLengthLoop : List Nat → Nat → Option Nat
  | [], n => some n
  | c :: cs, n =>
    if 48 ≤ c ∧ c ≤ 57 then parseLengthLoop cs (n * 10 + (c - 48)) else none

/-- Specification side of the length field: a base-10 non-negative integer, that
is one or more decimal digits and nothing else (no sign). -/
def parseLength (s : List Nat) : Option Nat :=
  if s = [] then none else parseLengthLoop s 0

/-- Specification side of the header decoding, on the text `<path>:<length>` of a
header line (the line without its newline): split once at the first colon, take
what precedes as the relative path and parse everything after it as a base-10
non-negative integer. `none` when the header is rejected. -/
def decodeHeaderFirstColon (text : List Nat) : Option (List Nat × Nat) :=
  match splitFirstColon text with
  | none => none
  | some (relpath, field) =>
    match parseLength field with
    | none => none
    | some size => some (relpath, size)

/-- The length field of a header text, everything after its first colon, does
not begin with a sign. -/
def unsignedLength (text : List Nat) : Bool :=
  match splitFirstColon text with
  | none => true
  | some (_, field) => !(field.head? == some 43 || field.head? == some 45)

/-- An entry of a tree together with the names of the directories that contain
it, the outermost (the folder handed to `sendFolder`) first. -/
structure Located where
  above : List (List Nat)
  entry : Entry

mutual
/-- Every entry of a tree, in depth-first order, with the names of the
directories containing it. -/
def located (above : List (List Nat)) : Entry → List Located
  | .file n c => [⟨above, .file n c⟩]
  | .dir n cs => ⟨above, .dir n cs⟩ :: locatedIn (above ++ [n]) cs
/-- Every entry below a directory, see `located`. -/
def locatedIn (above : List (List Nat)) : List Entry → List Located
  | [] => []
  | e :: es => located above e ++ locatedIn above es
end

/-- Specification side of the hidden-entry policy: an entry is sent when it is
not a directory, its own name does not begin with `.`, and no directory that
contains it has a name beginning with `.`. -/
def Located.sent (l : Located) : Bool :=
  !l.entry.isDir && !hidden l.entry.name && l.above.all (fun d => !hidden d)

/-- Relative path of a located entry under the folder: the names of the
directories below the folder that contain it, then its own name. -/
def Located.rel (l : Located) : List Nat :=
  relOf (l.above.drop 1 ++ [l.entry.name])

/-- Content of an entry (nothing for a directory). -/
def Entry.content : Entry → List Nat
  | .file _ c => c
  | .dir _ _ => []

/-- The frames of the listed entries that are to be sent: relative path and
content of each, in the order listed. -/
def framesOf (ls : List Located) : List (List Nat × List Nat) :=
  (ls.filter Located.sent).map (fun l => (l.rel, l.entry.content))

/-- Shape of the elements `filepath.Clean` has kept (last first): each is a real
element or `..`, and `..` is only kept on an unrooted path, at the bottom or on
top of another `..`. -/
def Kept (rooted : Bool) : List (List Nat) → Prop
  | [] => True
  | e :: k =>
    (e ≠ [] ∧ e ≠ [DOT] ∧ SLASH ∉ e ∧
      (e = [DOT, DOT] → rooted = false ∧ (k = [] ∨ k.head? = some [DOT, DOT]))) ∧ Kept rooted k

/-- Whether the path `p` lies at or beneath the directory `root`, both taken
lexically: both are rooted or neither is, the elements of the cleaned `root`
are the first elements of the cleaned `p`, and none of the elements of `p` that
follow is `..`. -/
def within (root p : List Nat) : Bool :=
  decide ((root.head? = some SLASH) = (p.head? = some SLASH)) &&
    (cleanElems root).isPrefixOf (cleanElems p) &&
    !((cleanElems p).drop (cleanElems root).length).contains [DOT, DOT]

/-! ### ReadString -/

theorem readString_length {d : Nat} {s line rest : List Nat}
    (h : ReadString d s = some (line, rest)) : rest.length < s.length := by
  induction s generalizing line rest with
  | nil => simp [ReadString] at h
  | cons c cs ih =>
    unfold ReadString at h
    split at h
    · simp only [Option.some.injEq, Prod.mk.injEq] at h
      rw [← h.2]; simp
    · cases hr : ReadString d cs with
      | none => simp [hr] at h
      | some lr =>
        obtain ⟨l, r⟩ := lr
        simp only [hr, Option.some.injEq, Prod.mk.injEq] at h
        have := ih hr
        rw [← h.2]; simp; omega

theorem readString_append {d : Nat} (h rest : List Nat) (hd : d ∉ h) :
    ReadString d (h ++ d :: rest) = some (h ++ [d], rest) := by
  induction h with
  | nil => simp [ReadString]
  | cons c cs ih =>
    have hc : c ≠ d := fun e => hd (by simp [e])
    have hcs : d ∉ cs := fun e => hd (by simp [e])
    simp [ReadString, hc, ih hcs]

theorem readString_none {d : Nat} (s : List Nat) (hd : d ∉ s) : ReadString d s = none := by
  induction s with
  | nil => rfl
  | cons c cs ih =>
    have hc : c ≠ d := fun e => hd (by simp [e])
    have hcs : d ∉ cs := fun e => hd (by simp [e])
    simp [ReadString, hc, ih hcs]

theorem readString_eq_append {d : Nat} {s line rest : List Nat}
    (h : ReadString d s = some (line, rest)) : s = line ++ rest := by
  induction s generalizing line rest with
  | nil => simp [ReadString] at h
  | cons c cs ih =>
    unfold ReadString at h
    split at h
    · simp only [Option.some.injEq, Prod.mk.injEq] at h
      rw [← h.1, ← h.2]; rfl
    · cases hr : ReadString d cs with
      | none => simp [hr] at h
      | some lr =>
        obtain ⟨l, r⟩ := lr
        simp only [hr, Option.some.injEq, Prod.mk.injEq] at h
        rw [← h.1, ← h.2, List.cons_append, ← ih hr]

/-! ### CopyN -/

theorem copyN_rest_suffix (src : List Nat) (n : Int) : (CopyN src n).rest <:+ src := by
  unfold CopyN
  split
  · exact List.suffix_refl _
  · split
    · exact List.drop_suffix _ _
    · exact List.nil_suffix

theorem copyN_rest_length (src : List Nat) (n : Int) : (CopyN src n).rest.length ≤ src.length := by
  unfold CopyN
  split
  · simp
  · split <;> simp

theorem copyN_exact (content rest : List Nat) :
    CopyN (content ++ rest) (content.length : Int) = ⟨content, rest, true⟩ := by
  unfold CopyN
  by_cases h0 : content = []
  · subst h0; simp
  · have hpos : 0 < content.length := List.length_pos.mpr h0
    have h1 : ¬ ((content.length : Int) ≤ 0) := by omega
    simp [h1]

theorem copyN_short (payload : List Nat) (n : Int) (h : (payload.length : Int) < n) :
    CopyN payload n = ⟨payload, [], false⟩ := by
  unfold CopyN
  have h1 : ¬ (n ≤ 0) := by omega
  have h2 : ¬ (n.toNat ≤ payload.length) := by omega
  simp [h1, h2]

/-! ### fuel -/

theorem handleLoop_eof (fs : FileSys) (out : List Nat) (k : Nat) (conn : List Nat)
    (hr : ReadString NL conn = none) :
    handleLoop fs out (k + 1) conn = some (Session.stop .finished) := by
  simp [handleLoop, hr]

theorem handleLoop_bad (fs : FileSys) (out : List Nat) (k : Nat) (conn line rest : List Nat)
    (e : Outcome) (hr : ReadString NL conn = some (line, rest))
    (hd : decodeHeader line = .error e) :
    handleLoop fs out (k + 1) conn = some (Session.stop e) := by
  simp [handleLoop, hr, hd]

theorem handleLoop_ok (fs : FileSys) (out : List Nat) (k : Nat) (conn line rest p : List Nat)
    (size : Int) (hr : ReadString NL conn = some (line, rest))
    (hd : decodeHeader line = .ok (p, size)) :
    handleLoop fs out (k + 1) conn =
      if fs.mkdirAll (Dir (Join out p)) = false then some (Session.stop .mkdirError)
      else if fs.create (Join out p) = false then some (Session.stop .createError)
      else if (CopyN rest size).ok = false then
        some ⟨[(Join out p, (CopyN rest size).written)], .writeError⟩
      else (handleLoop fs out k (CopyN rest size).rest).map
        (Session.after (Join out p, (CopyN rest size).written)) := by
  simp [handleLoop, hr, hd]

theorem handleLoop_total (fs : FileSys) (out : List Nat) :
    ∀ (k : Nat) (conn : List Nat), conn.length < k → ∃ s, handleLoop fs out k conn = some s := by
  intro k
  induction k with
  | zero => intro conn h; omega
  | succ k ih =>
    intro conn h
    cases hr : ReadString NL conn with
    | none => exact ⟨_, handleLoop_eof fs out k conn hr⟩
    | some lr =>
      obtain ⟨line, rest⟩ := lr
      have hlen := readString_length hr
      cases hd : decodeHeader line with
      | error e => exact ⟨_, handleLoop_bad fs out k conn line rest e hr hd⟩
      | ok ps =>
        obtain ⟨p, size⟩ := ps
        rw [handleLoop_ok fs out k conn line rest p size hr hd]
        have hc := copyN_rest_length rest size
        obtain ⟨s, hs⟩ := ih (CopyN rest size).rest (by omega)
        rw [hs]
        split
        · exact ⟨_, rfl⟩
        · split
          · exact ⟨_, rfl⟩
          · split
            · exact ⟨_, rfl⟩
            · exact ⟨_, rfl⟩

theorem handleLoop_mono (fs : FileSys) (out : List Nat) :
    ∀ (k : Nat) (conn : List Nat) (s : Session), handleLoop fs out k conn = some s →
      ∀ j, k ≤ j → handleLoop fs out j conn = some s := by
  intro k
  induction k with
  | zero => intro conn s h; simp [handleLoop] at h
  | succ k ih =>
    intro conn s h j hj
    obtain ⟨j, rfl⟩ : ∃ i, j = i + 1 := ⟨j - 1, by omega⟩
    cases hr : ReadString NL conn with
    | none =>
      rw [handleLoop_eof fs out _ conn hr] at h ⊢
      exact h
    | some lr =>
      obtain ⟨line, rest⟩ := lr
      cases hd : decodeHeader line with
      | error e =>
        rw [handleLoop_bad fs out _ conn line rest e hr hd] at h ⊢
        exact h
      | ok ps =>
        obtain ⟨p, size⟩ := ps
        rw [handleLoop_ok fs out _ conn line rest p size hr hd] at h ⊢
        cases hk : handleLoop fs out k (CopyN rest size).rest with
        | none =>
          rw [hk] at h
          split at h
          · rename_i h1; simp [h1, h]
          · rename_i h1
            split at h
            · rename_i h2; simp [h1, h2, h]
            · rename_i h2
              split at h
              · rename_i h3; simp [h1, h2, h3, h]
              · simp at h
        | some s2 =>
          rw [ih _ _ hk j (by omega)]
          rw [hk] at h
          exact h

theorem handleLoop_eq (fs : FileSys) (out conn : List Nat) (k : Nat) (h : conn.length < k) :
    handleLoop fs out k conn = handleConnection fs out conn := by
  obtain ⟨s, hs⟩ := handleLoop_total fs out (conn.length + 1) conn (by omega)
  unfold handleConnection
  rw [hs]
  exact handleLoop_mono fs out _ conn s hs k (by omega)

theorem handleConnection_total (fs : FileSys) (out conn : List Nat) :
    ∃ s, handleConnection fs out conn = some s :=
  handleLoop_total fs out (conn.length + 1) conn (by omega)

/-! ### TrimSpace -/

theorem spaceEncodings_no_colon : ∀ e ∈ spaceEncodings, COLON ∉ e := by decide

theorem leadingSpace_eq_none {s : List Nat} :
    leadingSpace s = none ↔ ∀ e ∈ spaceEncodings, ¬ e <+: s := by
  simp [leadingSpace]

theorem leadingSpace_append_colon (p r : List Nat) (h : leadingSpace p = none) :
    leadingSpace (p ++ COLON :: r) = none := by
  rw [leadingSpace_eq_none] at h ⊢
  intro e he hpre
  have h2 : p ++ [COLON] <+: p ++ COLON :: r := by
    refine ⟨r, by simp⟩
  rcases List.prefix_or_prefix_of_prefix hpre h2 with h3 | h3
  · rcases List.prefix_concat_iff.mp h3 with h4 | h4
    · exact spaceEncodings_no_colon e he (by simp [h4])
    · exact h e he h4
  · obtain ⟨t, ht⟩ := h3
    exact spaceEncodings_no_colon e he (by simp [← ht])

theorem trimLeft_of_none (s : List Nat) (h : leadingSpace s = none) : TrimLeft s = s := by
  unfold TrimLeft
  cases s.length with
  | zero => rfl
  | succ k => simp [trimLeftLoop, h]

theorem trailingSpace_newline (s : List Nat) : trailingSpace (s ++ [NL]) = some [NL] := by
  simp [trailingSpace, spaceEncodings, NL, List.find?, List.isPrefixOf]

theorem spaceEncodings_endsOffDigits : ∀ e ∈ spaceEncodings, endsOffDigits e = true := by decide

theorem trailingSpace_digit (s : List Nat) (d : Nat) (h1 : 48 ≤ d) (h2 : d ≤ 57) :
    trailingSpace (s ++ [d]) = none := by
  unfold trailingSpace
  rw [List.find?_eq_none]
  intro e he
  have h := spaceEncodings_endsOffDigits e he
  unfold endsOffDigits at h
  cases hr : e.reverse with
  | nil => simp [hr] at h
  | cons x t =>
    simp only [hr, decide_eq_true_eq] at h
    have hx : x ≠ d := by omega
    simp [List.isPrefixOf, hx]

theorem trimRight_of_none (s : List Nat) (h : trailingSpace s = none) : TrimRight s = s := by
  unfold TrimRight
  cases s.length with
  | zero => rfl
  | succ k => simp [trimRightLoop, h]

theorem trimRightLoop_of_none (k : Nat) (s : List Nat) (h : trailingSpace s = none) :
    trimRightLoop k s = s := by
  cases k with
  | zero => rfl
  | succ k => simp [trimRightLoop, h]

theorem trimRight_digit_newline (s : List Nat) (d : Nat) (h1 : 48 ≤ d) (h2 : d ≤ 57) :
    TrimRight (s ++ [d] ++ [NL]) = s ++ [d] := by
  unfold TrimRight
  have hlen : (s ++ [d] ++ [NL]).length = (s.length + 1) + 1 := by simp
  have htake : List.take ((s ++ [d] ++ [NL]).length - [NL].length) (s ++ [d] ++ [NL])
      = s ++ [d] := by
    have : (s ++ [d] ++ [NL]).length - [NL].length = (s ++ [d]).length := by simp
    rw [this, List.take_left]
  rw [hlen, trimRightLoop, trailingSpace_newline]
  simp only
  rw [htake]
  exact trimRightLoop_of_none _ _ (trailingSpace_digit s d h1 h2)

/-! ### the trimming loops run to their end -/

theorem spaceEncodings_ne_nil : ∀ e ∈ spaceEncodings, 0 < e.length := by decide

theorem leadingSpace_some {s e : List Nat} (h : leadingSpace s = some e) :
    0 < e.length ∧ e.length ≤ s.length := by
  unfold leadingSpace at h
  have hm := List.mem_of_find?_eq_some h
  have hp := List.find?_some h
  simp only [List.isPrefixOf_iff_prefix] at hp
  exact ⟨spaceEncodings_ne_nil e hm, hp.length_le⟩

theorem trailingSpace_some {s e : List Nat} (h : trailingSpace s = some e) :
    0 < e.length ∧ e.length ≤ s.length := by
  unfold trailingSpace at h
  have hm := List.mem_of_find?_eq_some h
  have hp := List.find?_some h
  simp only [List.isPrefixOf_iff_prefix] at hp
  have := hp.length_le
  simp only [List.length_reverse] at this
  exact ⟨spaceEncodings_ne_nil e hm, this⟩

theorem trimLeftLoop_done (k : Nat) (s : List Nat) (h : s.length ≤ k) :
    leadingSpace (trimLeftLoop k s) = none := by
  induction k generalizing s with
  | zero =>
    have : s = [] := List.length_eq_zero.mp (by omega)
    subst this
    decide
  | succ k ih =>
    unfold trimLeftLoop
    cases hl : leadingSpace s with
    | none => exact hl
    | some e =>
      have := leadingSpace_some hl
      exact ih _ (by simp only [List.length_drop]; omega)

theorem trimRightLoop_done (k : Nat) (s : List Nat) (h : s.length ≤ k) :
    trailingSpace (trimRightLoop k s) = none := by
  induction k generalizing s with
  | zero =>
    have : s = [] := List.length_eq_zero.mp (by omega)
    subst this
    decide
  | succ k ih =>
    unfold trimRightLoop
    cases hl : trailingSpace s with
    | none => exact hl
    | some e =>
      have := trailingSpace_some hl
      exact ih _ (by simp only [List.length_take]; omega)

theorem leadingSpace_trimLeft (s : List Nat) : leadingSpace (TrimLeft s) = none :=
  trimLeftLoop_done _ s (Nat.le_refl _)

theorem trailingSpace_trimSpace (s : List Nat) : trailingSpace (TrimSpace s) = none :=
  trimRightLoop_done _ _ (Nat.le_refl _)

/-! ### trimming keeps the colons -/

theorem count_colon_trimLeftLoop (k : Nat) (s : List Nat) :
    (trimLeftLoop k s).count COLON = s.count COLON := by
  induction k generalizing s with
  | zero => rfl
  | succ k ih =>
    unfold trimLeftLoop
    cases hl : leadingSpace s with
    | none => rfl
    | some e =>
      simp only
      rw [ih]
      unfold leadingSpace at hl
      have hm := List.mem_of_find?_eq_some hl
      have hp := List.find?_some hl
      simp only [List.isPrefixOf_iff_prefix] at hp
      have he := List.prefix_iff_eq_append.mp hp
      have h0 : e.count COLON = 0 := List.count_eq_zero.mpr (spaceEncodings_no_colon e hm)
      conv_rhs => rw [← he, List.count_append, h0, Nat.zero_add]

theorem count_colon_trimRightLoop (k : Nat) (s : List Nat) :
    (trimRightLoop k s).count COLON = s.count COLON := by
  induction k generalizing s with
  | zero => rfl
  | succ k ih =>
    unfold trimRightLoop
    cases hl : trailingSpace s with
    | none => rfl
    | some e =>
      simp only
      rw [ih]
      unfold trailingSpace at hl
      have hm := List.mem_of_find?_eq_some hl
      have hp := List.find?_some hl
      simp only [List.isPrefixOf_iff_prefix, List.reverse_prefix] at hp
      have he := List.suffix_iff_eq_append.mp hp
      have h0 : e.count COLON = 0 := List.count_eq_zero.mpr (spaceEncodings_no_colon e hm)
      conv_rhs => rw [← he, List.count_append, h0, Nat.add_zero]

theorem count_colon_trimSpace (s : List Nat) : (TrimSpace s).count COLON = s.count COLON := by
  unfold TrimSpace TrimRight TrimLeft
  rw [count_colon_trimRightLoop, count_colon_trimLeftLoop]

/-! ### Split -/

theorem split_ne_nil (s : List Nat) (sep : Nat) : Split s sep ≠ [] := by
  induction s with
  | nil => simp [Split]
  | cons c cs ih =>
    unfold Split
    split
    · simp
    · split <;> simp

theorem split_of_not_mem (s : List Nat) (sep : Nat) (h : sep ∉ s) : Split s sep = [s] := by
  induction s with
  | nil => rfl
  | cons c cs ih =>
    have hc : c ≠ sep := fun e => h (by simp [e])
    have hcs : sep ∉ cs := fun e => h (by simp [e])
    simp [Split, hc, ih hcs]

theorem split_append (p f : List Nat) (sep : Nat) (h : sep ∉ p) :
    Split (p ++ sep :: f) sep = p :: Split f sep := by
  induction p with
  | nil => simp [Split]
  | cons c cs ih =>
    have hc : c ≠ sep := fun e => h (by simp [e])
    have hcs : sep ∉ cs := fun e => h (by simp [e])
    simp [Split, hc, ih hcs]

/-! ### decimal digits -/

theorem decimalLoop_digits (fuel n : Nat) (acc : List Nat) :
    ∀ c ∈ decimalLoop fuel n acc, c ∈ acc ∨ (48 ≤ c ∧ c ≤ 57) := by
  induction fuel generalizing n acc with
  | zero => intro c hc; exact Or.inl hc
  | succ k ih =>
    intro c hc
    unfold decimalLoop at hc
    split at hc
    · rcases List.mem_cons.mp hc with h | h
      · right; omega
      · left; exact h
    · rcases ih _ _ c hc with h | h
      · rcases List.mem_cons.mp h with h | h
        · right; omega
        · left; exact h
      · right; exact h

theorem decimalLoop_ne_nil (fuel n : Nat) (acc : List Nat) (h : acc ≠ [] ∨ 0 < fuel) :
    decimalLoop fuel n acc ≠ [] := by
  induction fuel generalizing n acc with
  | zero =>
    rcases h with h | h
    · exact h
    · omega
  | succ k ih =>
    unfold decimalLoop
    split
    · simp
    · exact ih _ _ (Or.inl (by simp))

theorem formatDecimal_digits (n : Nat) : ∀ c ∈ formatDecimal n, 48 ≤ c ∧ c ≤ 57 := by
  intro c hc
  rcases decimalLoop_digits _ _ _ c hc with h | h
  · simp at h
  · exact h

theorem formatDecimal_ne_nil (n : Nat) : formatDecimal n ≠ [] :=
  decimalLoop_ne_nil _ _ _ (Or.inr (by omega))

theorem parseUintLoop_decimalLoop (fuel n : Nat) (acc : List Nat) (hf : n < fuel)
    (hn : n ≤ maxUint64) :
    parseUintLoop (decimalLoop fuel n acc) 0 = parseUintLoop acc n := by
  induction fuel generalizing n acc with
  | zero => omega
  | succ k ih =>
    unfold decimalLoop
    split
    · rename_i h10
      have : ¬ (n > maxUint64) := by omega
      simp [parseUintLoop, h10, this]
      omega
    · rename_i h10
      rw [ih (n / 10) _ (by omega) (by omega)]
      have e : n / 10 * 10 + n % 10 = n := by omega
      have : ¬ (n > maxUint64) := by omega
      have h57 : 48 + n % 10 ≤ 57 := by omega
      have h48 : 48 ≤ 48 + n % 10 := by omega
      have hsub : 48 + n % 10 - 48 = n % 10 := by omega
      rw [parseUintLoop, if_pos ⟨h48, h57⟩, hsub, e, if_neg this]

theorem parseUint_formatDecimal (n : Nat) (hn : n ≤ maxUint64) :
    ParseUint (formatDecimal n) = some n := by
  unfold ParseUint
  rw [if_neg (formatDecimal_ne_nil n)]
  unfold formatDecimal
  rw [parseUintLoop_decimalLoop _ _ _ (by omega) hn]
  rfl

theorem parseInt_formatDecimal (n : Nat) (hn : n < 2 ^ 63) :
    ParseInt (formatDecimal n) = some (n : Int) := by
  have hne := formatDecimal_ne_nil n
  have hdig := formatDecimal_digits n
  have hp := parseUint_formatDecimal n (by unfold maxUint64; omega)
  cases hf : formatDecimal n with
  | nil => exact absurd hf hne
  | cons c cs =>
    rw [hf] at hp hdig
    have hc := hdig c (by simp)
    have h43 : c ≠ 43 := by omega
    have h45 : c ≠ 45 := by omega
    have hlt : ¬ (2 ^ 63 ≤ n) := by omega
    simp [ParseInt, h43, h45, hp]
    omega

/-! ### header -/

theorem trimSpace_header (p : List Nat) (n : Nat) (hl : leadingSpace p = none) :
    TrimSpace (header p n) = p ++ COLON :: formatDecimal n := by
  unfold TrimSpace header
  rw [trimLeft_of_none _ (leadingSpace_append_colon p _ hl)]
  have hne := formatDecimal_ne_nil n
  have hdig := formatDecimal_digits n
  obtain ⟨init, d, hd⟩ : ∃ init d, formatDecimal n = init ++ [d] :=
    ⟨(formatDecimal n).dropLast, (formatDecimal n).getLast hne,
      (List.dropLast_append_getLast hne).symm⟩
  have hdd := hdig d (by simp [hd])
  have e : p ++ COLON :: (formatDecimal n ++ [NL]) = (p ++ COLON :: init) ++ [d] ++ [NL] := by
    simp [hd]
  rw [e, trimRight_digit_newline _ d hdd.1 hdd.2]
  simp [hd]

theorem colon_not_mem_formatDecimal (n : Nat) : COLON ∉ formatDecimal n := by
  intro h
  have := formatDecimal_digits n COLON h
  unfold COLON at this
  omega

theorem nl_not_mem_formatDecimal (n : Nat) : NL ∉ formatDecimal n := by
  intro h
  have := formatDecimal_digits n NL h
  unfold NL at this
  omega

theorem decodeHeader_header (p : List Nat) (n : Nat) (hl : leadingSpace p = none)
    (hc : COLON ∉ p) (hn : n < 2 ^ 63) :
    decodeHeader (header p n) = .ok (p, (n : Int)) := by
  unfold decodeHeader
  rw [trimSpace_header p n hl, split_append p _ COLON hc,
    split_of_not_mem _ COLON (colon_not_mem_formatDecimal n)]
  simp [parseInt_formatDecimal n hn]

theorem readString_header (p : List Nat) (n : Nat) (rest : List Nat) (hnl : NL ∉ p) :
    ReadString NL (header p n ++ rest) = some (header p n, rest) := by
  have e : header p n ++ rest = (p ++ COLON :: formatDecimal n) ++ NL :: rest := by
    simp [header]
  have e2 : header p n = (p ++ COLON :: formatDecimal n) ++ [NL] := by
    simp [header]
  rw [e, e2]
  apply readString_append
  intro h
  rcases List.mem_append.mp h with h | h
  · exact hnl h
  · rcases List.mem_cons.mp h with h | h
    · simp [NL, COLON] at h
    · exact nl_not_mem_formatDecimal n h

theorem toOption_eq_some {ε α : Type} {x : Except ε α} {a : α}
    (h : x.toOption = some a) : x = .ok a := by
  cases x with
  | error e => simp [Except.toOption] at h
  | ok b => simp [Except.toOption] at h; rw [h]

/-! ### one frame, then the rest of the stream -/

theorem handleConnection_frame (fs : FileSys) (out : List Nat) (fr : Frame)
    (rest : List Nat) (hw : fr.wellFormed) (ha : accepts fs out fr.path) :
    handleConnection fs out (fr.bytes ++ rest) =
      (handleConnection fs out rest).map (Session.after (Join out fr.path, fr.payload)) := by
  obtain ⟨hnl, hd⟩ := hw
  obtain ⟨hm, hcr⟩ := ha
  have hr : ReadString NL (fr.bytes ++ rest) = some (fr.line ++ [NL], fr.payload ++ rest) := by
    have : fr.bytes ++ rest = fr.line ++ NL :: (fr.payload ++ rest) := by
      simp [Frame.bytes]
    rw [this]
    exact readString_append _ _ hnl
  unfold handleConnection
  rw [handleLoop_ok fs out _ _ _ _ fr.path (fr.payload.length : Int) hr (toOption_eq_some hd)]
  rw [copyN_exact]
  simp only [hm, hcr, Bool.true_eq_false, if_false]
  rw [handleLoop_eq fs out rest _ (by simp [Frame.bytes]; omega)]
  rfl

theorem handleConnection_frames (fs : FileSys) (out : List Nat)
    (frames : List Frame) (rest : List Nat)
    (hw : ∀ fr ∈ frames, fr.wellFormed) (ha : ∀ fr ∈ frames, accepts fs out fr.path) :
    handleConnection fs out (streamOf frames ++ rest) =
      (handleConnection fs out rest).map (Session.afterAll (written out frames)) := by
  induction frames with
  | nil =>
    cases h : handleConnection fs out rest with
    | none => simp [streamOf, h]
    | some s => simp [streamOf, h, written, Session.afterAll]
  | cons fr frames ih =>
    have e : streamOf (fr :: frames) ++ rest = fr.bytes ++ (streamOf frames ++ rest) := by
      simp [streamOf]
    rw [e, handleConnection_frame fs out fr _ (hw fr (by simp)) (ha fr (by simp)),
      ih (fun g hg => hw g (by simp [hg])) (fun g hg => ha g (by simp [hg]))]
    cases h : handleConnection fs out rest with
    | none => simp
    | some s => simp [written, Session.afterAll, Session.after]

theorem handleConnection_of_no_newline (fs : FileSys) (out tail : List Nat) (h : NL ∉ tail) :
    handleConnection fs out tail = some (Session.stop .finished) := by
  unfold handleConnection
  exact handleLoop_eof fs out _ tail (readString_none tail h)

/-! ### what the sender writes is a sequence of well-formed frames -/

theorem frameOf_wellFormed (f : List Nat × List Nat) (hf : framable f) :
    (frameOf f).wellFormed := by
  obtain ⟨hc, hnl, hl, hlen⟩ := hf
  constructor
  · intro h
    rcases List.mem_append.mp h with h | h
    · exact hnl h
    · rcases List.mem_cons.mp h with h | h
      · simp [NL, COLON] at h
      · exact nl_not_mem_formatDecimal _ h
  · have e : (frameOf f).line ++ [NL] = header f.1 f.2.length := by
      simp [frameOf, header]
    rw [e, decodeHeader_header _ _ hl hc hlen]
    rfl

theorem frameOf_bytes (f : List Nat × List Nat) :
    (frameOf f).bytes = sendFile f.1 (.file f.1 f.2) := by
  simp [frameOf, Frame.bytes, sendFile, header]

theorem streamOf_frameOf (files : List (List Nat × List Nat)) :
    streamOf (files.map frameOf) = sendFiles files := by
  induction files with
  | nil => rfl
  | cons f files ih =>
    simp only [List.map_cons, streamOf, sendFiles, ih, frameOf_bytes]

theorem written_frameOf (out : List Nat) (files : List (List Nat × List Nat)) :
    written out (files.map frameOf) = received out files := by
  simp [written, received, frameOf]

theorem handleConnection_sendFiles (fs : FileSys) (out : List Nat)
    (files : List (List Nat × List Nat)) (rest : List Nat)
    (hf : ∀ f ∈ files, framable f) (ha : ∀ f ∈ files, accepts fs out f.1) :
    handleConnection fs out (sendFiles files ++ rest) =
      (handleConnection fs out rest).map (Session.afterAll (received out files)) := by
  rw [← streamOf_frameOf, ← written_frameOf]
  apply handleConnection_frames
  · intro fr hfr
    obtain ⟨f, hfm, rfl⟩ := List.mem_map.mp hfr
    exact frameOf_wellFormed f (hf f hfm)
  · intro fr hfr
    obtain ⟨f, hfm, rfl⟩ := List.mem_map.mp hfr
    exact ha f hfm

/-! ### length fields that do not parse -/

theorem parseUintLoop_digits (s : List Nat) (n v : Nat) (h : parseUintLoop s n = some v) :
    s.all isDigit = true := by
  induction s generalizing n with
  | nil => rfl
  | cons c cs ih =>
    unfold parseUintLoop at h
    split at h
    · rename_i hd
      split at h
      · simp at h
      · simp only [List.all_cons, Bool.and_eq_true]
        exact ⟨by simp [isDigit, hd], ih _ h⟩
    · simp at h

theorem parseUint_digits (s : List Nat) (v : Nat) (h : ParseUint s = some v) :
    s ≠ [] ∧ s.all isDigit = true := by
  unfold ParseUint at h
  split at h
  · simp at h
  · rename_i hne
    exact ⟨hne, parseUintLoop_digits s 0 v h⟩

theorem parseInt_isDecimalInteger (s : List Nat) (v : Int) (h : ParseInt s = some v) :
    isDecimalInteger s = true := by
  cases s with
  | nil => simp [ParseInt] at h
  | cons c cs =>
    unfold ParseInt at h
    simp only at h
    show (if c = 43 ∨ c = 45 then !cs.isEmpty && cs.all isDigit else (c :: cs).all isDigit) = true
    by_cases hs : c = 43 ∨ c = 45
    · rw [if_pos hs] at h ⊢
      cases hu : ParseUint cs with
      | none => simp [hu] at h
      | some un =>
        obtain ⟨h1, h2⟩ := parseUint_digits cs un hu
        simp [h2, h1]
    · rw [if_neg hs] at h ⊢
      cases hu : ParseUint (c :: cs) with
      | none => simp [hu] at h
      | some un => exact (parseUint_digits _ un hu).2

theorem parseInt_none_of_not_decimal (s : List Nat) (h : isDecimalInteger s = false) :
    ParseInt s = none := by
  cases hp : ParseInt s with
  | none => rfl
  | some v => rw [parseInt_isDecimalInteger s v hp] at h; cases h

theorem isDecimalInteger_no_colon (s : List Nat) (h : COLON ∈ s) : isDecimalInteger s = false := by
  cases s with
  | nil => rfl
  | cons c cs =>
    show (if c = 43 ∨ c = 45 then !cs.isEmpty && cs.all isDigit else (c :: cs).all isDigit) = false
    by_cases hs : c = 43 ∨ c = 45
    · rw [if_pos hs]
      have hc : COLON ∈ cs := by
        rcases List.mem_cons.mp h with h | h
        · unfold COLON at h; omega
        · exact h
      have : cs.all isDigit = false := by
        rw [List.all_eq_false]
        exact ⟨COLON, hc, by decide⟩
      simp [this]
    · rw [if_neg hs]
      rw [List.all_eq_false]
      exact ⟨COLON, h, by decide⟩

theorem parseInt_none_of_colon (s : List Nat) (h : COLON ∈ s) : ParseInt s = none :=
  parseInt_none_of_not_decimal s (isDecimalInteger_no_colon s h)

/-! ### counting the fields -/

theorem split_length (s : List Nat) (sep : Nat) : (Split s sep).length = s.count sep + 1 := by
  induction s with
  | nil => rfl
  | cons c cs ih =>
    unfold Split
    by_cases hc : c = sep
    · subst hc; simp [ih]
    · rw [if_neg hc]
      have hne := split_ne_nil cs sep
      cases hs : Split cs sep with
      | nil => exact absurd hs hne
      | cons p ps =>
        rw [hs] at ih
        simp only [List.length_cons] at ih ⊢
        rw [List.count_cons_of_ne (Ne.symm hc)]
        exact ih

theorem split_count_one (s : List Nat) (h : s.count COLON = 1) :
    Split s COLON = [s.takeWhile (fun c => c != COLON), afterColon s] := by
  induction s with
  | nil => simp at h
  | cons c cs ih =>
    by_cases hc : c = COLON
    · subst hc
      have h0 : cs.count COLON = 0 := by simpa using h
      have hn : COLON ∉ cs := List.count_eq_zero.mp h0
      simp [Split, afterColon, split_of_not_mem cs COLON hn]
    · have h1 : cs.count COLON = 1 := by
        rw [List.count_cons_of_ne (Ne.symm hc)] at h; exact h
      have := ih h1
      simp [Split, hc, this, afterColon]

theorem decodeHeader_malformed (line : List Nat) (h : malformed line = true) :
    decodeHeader line = .error (malformedError line) := by
  unfold malformed at h
  unfold malformedError decodeHeader
  by_cases hc : (TrimSpace line).count COLON = 1
  · simp only [hc, ne_eq, not_true_eq_false, decide_False, Bool.false_or,
      Bool.not_eq_true', if_false] at h ⊢
    rw [split_count_one _ hc]
    simp only
    rw [parseInt_none_of_not_decimal _ h]
  · rw [if_pos hc]
    have hl := split_length (TrimSpace line) COLON
    split
    · rename_i p f heq
      rw [heq] at hl
      simp at hl
      omega
    · rfl

/-! ### splitting at the first colon -/

theorem splitFirstColon_none (s : List Nat) (h : splitFirstColon s = none) :
    Split s COLON = [s] := by
  induction s with
  | nil => rfl
  | cons c cs ih =>
    unfold splitFirstColon at h
    split at h
    · simp at h
    · rename_i hc
      cases hs : splitFirstColon cs with
      | none => simp [Split, hc, ih hs]
      | some pf => simp [hs] at h

theorem splitFirstColon_some (s p f : List Nat) (h : splitFirstColon s = some (p, f)) :
    Split s COLON = p :: Split f COLON := by
  induction s generalizing p with
  | nil => simp [splitFirstColon] at h
  | cons c cs ih =>
    unfold splitFirstColon at h
    split at h
    · rename_i hc
      simp only [Option.some.injEq, Prod.mk.injEq] at h
      obtain ⟨rfl, rfl⟩ := h
      simp [Split, hc]
    · rename_i hc
      cases hs : splitFirstColon cs with
      | none => simp [hs] at h
      | some pf =>
        obtain ⟨p2, f2⟩ := pf
        simp only [hs, Option.some.injEq, Prod.mk.injEq] at h
        obtain ⟨rfl, rfl⟩ := h
        simp [Split, hc, ih p2 hs]

/-! ### the length field of the specification -/

theorem parseLengthLoop_ge (s : List Nat) (n v : Nat) (h : parseLengthLoop s n = some v) :
    n ≤ v := by
  induction s generalizing n with
  | nil => simp [parseLengthLoop] at h; omega
  | cons c cs ih =>
    unfold parseLengthLoop at h
    split at h
    · have := ih _ h
      omega
    · simp at h

theorem parseLengthLoop_digits (s : List Nat) (n v : Nat) (h : parseLengthLoop s n = some v) :
    s.all isDigit = true := by
  induction s generalizing n with
  | nil => rfl
  | cons c cs ih =>
    unfold parseLengthLoop at h
    split at h
    · rename_i hd
      simp only [List.all_cons, Bool.and_eq_true]
      exact ⟨by simp [isDigit, hd], ih _ h⟩
    · simp at h

theorem parseLength_none_of_colon (s : List Nat) (h : COLON ∈ s) : parseLength s = none := by
  unfold parseLength
  split
  · rfl
  · cases hp : parseLengthLoop s 0 with
    | none => rfl
    | some v =>
      have hd := parseLengthLoop_digits s 0 v hp
      rw [List.all_eq_true] at hd
      exact absurd (hd COLON h) (by decide)

theorem parseUintLoop_eq (s : List Nat) (n : Nat) (hn : n ≤ maxUint64) :
    parseUintLoop s n =
      (parseLengthLoop s n).bind (fun v => if v ≤ maxUint64 then some v else none) := by
  induction s generalizing n with
  | nil => simp [parseUintLoop, parseLengthLoop, hn]
  | cons c cs ih =>
    unfold parseUintLoop parseLengthLoop
    by_cases hd : 48 ≤ c ∧ c ≤ 57
    · rw [if_pos hd, if_pos hd]
      by_cases ho : n * 10 + (c - 48) > maxUint64
      · rw [if_pos ho]
        cases hp : parseLengthLoop cs (n * 10 + (c - 48)) with
        | none => rfl
        | some v =>
          have := parseLengthLoop_ge _ _ _ hp
          have hv : ¬ v ≤ maxUint64 := by omega
          simp [hv]
      · rw [if_neg ho]
        exact ih _ (by omega)
    · rw [if_neg hd, if_neg hd]
      rfl

theorem parseUint_eq (s : List Nat) :
    ParseUint s = (parseLength s).bind (fun v => if v ≤ maxUint64 then some v else none) := by
  unfold ParseUint parseLength
  split
  · rfl
  · exact parseUintLoop_eq s 0 (by unfold maxUint64; omega)

theorem parseInt_of_unsigned (s : List Nat) (h1 : s.head? ≠ some 43) (h2 : s.head? ≠ some 45) :
    ParseInt s =
      (parseLength s).bind (fun v => if v < 2 ^ 63 then some (v : Int) else none) := by
  cases s with
  | nil => rfl
  | cons c cs =>
    have hc1 : c ≠ 43 := fun e => h1 (by simp [e])
    have hc2 : c ≠ 45 := fun e => h2 (by simp [e])
    have hs : ¬ (c = 43 ∨ c = 45) := by omega
    show (match ParseUint (if c = 43 ∨ c = 45 then cs else c :: cs) with
      | none => none
      | some un =>
        if (!decide (c = 45) && decide (un ≥ 2 ^ 63)) = true then none
        else if (decide (c = 45) && decide (un > 2 ^ 63)) = true then none
        else some (if decide (c = 45) = true then -(un : Int) else (un : Int))) = _
    rw [if_neg hs, parseUint_eq]
    cases hp : parseLength (c :: cs) with
    | none => rfl
    | some v =>
      simp only [Option.some_bind]
      by_cases hv : v ≤ maxUint64
      · rw [if_pos hv]
        simp only [hc2, decide_False, Bool.not_false, Bool.true_and, Bool.false_and,
          Bool.false_eq_true, if_false, decide_eq_true_eq]
        split_ifs <;> first | rfl | (exfalso; omega)
      · rw [if_neg hv]
        unfold maxUint64 at hv
        split_ifs <;> first | rfl | (exfalso; omega)

/-- Apart from a signed length field, the decoding of `handleConnection` is the
specified one on the trimmed line: it accepts the same lines with the same
relative path and length, for every length that is an `int64`. -/
theorem decodeHeader_firstColon_of_unsigned (line : List Nat)
    (h : unsignedLength (TrimSpace line) = true) :
    (decodeHeader line).toOption =
      (decodeHeaderFirstColon (TrimSpace line)).bind
        (fun r => if r.2 < 2 ^ 63 then some (r.1, (r.2 : Int)) else none) := by
  unfold decodeHeader decodeHeaderFirstColon
  unfold unsignedLength at h
  cases hs : splitFirstColon (TrimSpace line) with
  | none => simp [splitFirstColon_none _ hs, Except.toOption]
  | some pf =>
    obtain ⟨p, f⟩ := pf
    rw [hs] at h
    simp only [Bool.not_eq_true', Bool.or_eq_false_iff, beq_eq_false_iff_ne, ne_eq] at h
    rw [splitFirstColon_some _ p f hs]
    by_cases hc : COLON ∈ f
    · have hl := split_length f COLON
      have hpos : 0 < f.count COLON := List.count_pos_iff.mpr hc
      simp only [parseLength_none_of_colon f hc, Option.none_bind]
      split
      · rename_i p2 f2 heq
        simp only [List.cons.injEq] at heq
        rw [heq.2] at hl
        simp at hl
        omega
      · rfl
    · rw [split_of_not_mem f COLON hc]
      simp only
      rw [parseInt_of_unsigned f h.1 h.2]
      cases hp : parseLength f with
      | none => rfl
      | some v =>
        simp only [Option.some_bind]
        by_cases h63 : v < 2 ^ 63
        · simp only [h63, if_true]
          rfl
        · simp only [h63, if_false]
          rfl

/-! ### a path with a colon -/

theorem decodeHeader_colon_path (p : List Nat) (n : Nat) (hc : COLON ∈ p) :
    3 ≤ (Split (TrimSpace (header p n)) COLON).length ∧
      decodeHeader (header p n) = .error .invalidMetadata := by
  have hcount : (TrimSpace (header p n)).count COLON = p.count COLON + 1 := by
    rw [count_colon_trimSpace]
    unfold header
    have h0 : (formatDecimal n).count COLON = 0 :=
      List.count_eq_zero.mpr (colon_not_mem_formatDecimal n)
    have h1 : [NL].count COLON = 0 := by decide
    rw [List.count_append, List.count_cons_self, List.count_append, h0, h1]
  have hpos : 0 < p.count COLON := List.count_pos_iff.mpr hc
  have hne : (TrimSpace (header p n)).count COLON ≠ 1 := by omega
  constructor
  · rw [split_length]; omega
  · have hm : malformed (header p n) = true := by
      unfold malformed
      simp [hne]
    have := decodeHeader_malformed _ hm
    unfold malformedError at this
    rw [if_pos hne] at this
    exact this

/-! ### the walk -/

theorem sendFiles_append (a b : List (List Nat × List Nat)) :
    sendFiles (a ++ b) = sendFiles a ++ sendFiles b := by
  induction a with
  | nil => rfl
  | cons f a ih => simp [sendFiles, ih]

theorem framesOf_append (a b : List Located) : framesOf (a ++ b) = framesOf a ++ framesOf b := by
  simp [framesOf]

mutual
theorem framesOf_located_hidden (above : List (List Nat)) (h : above.all (fun d => !hidden d) = false) :
    ∀ e : Entry, framesOf (located above e) = []
  | .file n c => by
    simp [located, framesOf, Located.sent, h]
  | .dir n cs => by
    have h2 : (above ++ [n]).all (fun d => !hidden d) = false := by
      rw [List.all_append, h]; rfl
    have ih := framesOf_locatedIn_hidden (above ++ [n]) h2 cs
    unfold framesOf at ih ⊢
    simp only [located, List.filter_cons]
    simp only [Located.sent, Entry.isDir, Bool.not_true, Bool.false_and, Bool.false_eq_true,
      if_false]
    exact ih
theorem framesOf_locatedIn_hidden (above : List (List Nat)) (h : above.all (fun d => !hidden d) = false) :
    ∀ es : List Entry, framesOf (locatedIn above es) = []
  | [] => rfl
  | e :: es => by
    rw [locatedIn, framesOf_append, framesOf_located_hidden above h e,
      framesOf_locatedIn_hidden above h es]
    rfl
end

mutual
theorem walk_visit (above : List (List Nat)) (hne : above ≠ [])
    (hv : above.all (fun d => !hidden d) = true) :
    ∀ e : Entry, walk visit (above.drop 1 ++ [e.name]) e =
      (sendFiles (framesOf (located above e)),
        if e.isDir && hidden e.name then Signal.skipDir else Signal.nil)
  | .file n c => by
    by_cases hh : hidden n = true
    · simp [walk, visit, Entry.name, Entry.isDir, hh, located, framesOf, Located.sent, sendFiles]
    · simp [walk, visit, Entry.name, Entry.isDir, hh, located, framesOf, Located.sent, sendFiles,
        hv, Located.rel, Entry.content, sendFile]
  | .dir n cs => by
    by_cases hh : hidden n = true
    · have h2 : (above ++ [n]).all (fun d => !hidden d) = false := by
        rw [List.all_append]; simp [hh]
      have := framesOf_locatedIn_hidden (above ++ [n]) h2 cs
      simp [walk, visit, Entry.name, Entry.isDir, hh, located, framesOf, Located.sent, sendFiles]
      unfold framesOf at this
      rw [this]
      rfl
    · have h2 : (above ++ [n]).all (fun d => !hidden d) = true := by
        rw [List.all_append, hv]; simp [hh]
      have hd : (above ++ [n]).drop 1 = above.drop 1 ++ [n] := by
        cases above with
        | nil => exact absurd rfl hne
        | cons a as => rfl
      have ih := walkNames_visit (above ++ [n]) (by simp) h2 cs
      rw [hd] at ih
      simp only [walk, visit, Entry.name, Entry.isDir, hh, Bool.false_eq_true, if_false,
        if_true, ih, List.nil_append, Bool.and_false]
      have : framesOf (located above (.dir n cs)) = framesOf (locatedIn (above ++ [n]) cs) := by
        simp [framesOf, located, Located.sent, Entry.isDir]
      rw [this]
theorem walkNames_visit (above : List (List Nat)) (hne : above ≠ [])
    (hv : above.all (fun d => !hidden d) = true) :
    ∀ es : List Entry, walkNames visit (above.drop 1) es =
      (sendFiles (framesOf (locatedIn above es)), Signal.nil)
  | [] => rfl
  | e :: es => by
    have h1 := walk_visit above hne hv e
    have h2 := walkNames_visit above hne hv es
    rw [walkNames, h1, h2, locatedIn, framesOf_append, sendFiles_append]
    by_cases hd : (e.isDir && hidden e.name) = true
    · simp only [hd, if_true]
      simp at hd
      simp [hd.1]
    · simp only [hd, if_false]
      rfl
end

/-! ### cleaning paths -/

theorem split_append_sep (a b : List Nat) (sep : Nat) :
    Split (a ++ sep :: b) sep = Split a sep ++ Split b sep := by
  induction a with
  | nil => simp [Split]
  | cons c cs ih =>
    by_cases hc : c = sep
    · simp [Split, hc, ih]
    · have hne := split_ne_nil cs sep
      cases hs : Split cs sep with
      | nil => exact absurd hs hne
      | cons p ps => simp [Split, hc, ih, hs]

theorem split_no_sep (s : List Nat) (sep : Nat) : ∀ e ∈ Split s sep, sep ∉ e := by
  induction s with
  | nil => simp [Split]
  | cons c cs ih =>
    unfold Split
    by_cases hc : c = sep
    · rw [if_pos hc]
      intro e he
      rcases List.mem_cons.mp he with h | h
      · simp [h]
      · exact ih e h
    · rw [if_neg hc]
      have hne := split_ne_nil cs sep
      cases hs : Split cs sep with
      | nil => exact absurd hs hne
      | cons p ps =>
        rw [hs] at ih
        intro e he
        rcases List.mem_cons.mp he with h | h
        · subst h
          intro hm
          rcases List.mem_cons.mp hm with h2 | h2
          · exact hc h2.symm
          · exact ih p (by simp) h2
        · exact ih e (by simp [h])

theorem split_joinSlash (es : List (List Nat)) (hne : es ≠ []) (hs : ∀ e ∈ es, SLASH ∉ e) :
    Split (joinSlash es) SLASH = es := by
  induction es with
  | nil => exact absurd rfl hne
  | cons c cs ih =>
    cases cs with
    | nil => exact split_of_not_mem c SLASH (hs c (by simp))
    | cons d ds =>
      have ih2 := ih (by simp) (fun e he => hs e (List.mem_cons_of_mem _ he))
      show Split (c ++ SLASH :: joinSlash (d :: ds)) SLASH = c :: d :: ds
      rw [split_append_sep, split_of_not_mem c SLASH (hs c (by simp)), ih2]
      rfl

theorem kept_step (r : Bool) (k : List (List Nat)) (e : List Nat) (hk : Kept r k)
    (he : SLASH ∉ e) : Kept r (cleanStep r k e) := by
  unfold cleanStep
  split
  · exact hk
  · rename_i h1
    split
    · rename_i h2
      cases k with
      | nil =>
        cases r with
        | true => simpa using hk
        | false => simp [Kept, DOT, SLASH]
      | cons top below =>
        simp only
        split
        · rename_i h3
          refine ⟨⟨?_, ?_, he, ?_⟩, hk⟩
          · simp [h2]
          · simp [h2]
          · intro _
            exact ⟨(hk.1.2.2.2 h3).1, Or.inr (by simp [h3])⟩
        · exact hk.2
    · rename_i h2
      push_neg at h1
      exact ⟨⟨h1.1, h1.2, he, fun h => absurd h h2⟩, hk⟩

theorem kept_foldl (r : Bool) (l : List (List Nat)) (k : List (List Nat)) (hk : Kept r k)
    (hl : ∀ e ∈ l, SLASH ∉ e) : Kept r (l.foldl (cleanStep r) k) := by
  induction l generalizing k with
  | nil => exact hk
  | cons e l ih =>
    exact ih _ (kept_step r k e hk (hl e (by simp))) (fun x hx => hl x (by simp [hx]))

theorem kept_mem (r : Bool) (k : List (List Nat)) (hk : Kept r k) :
    ∀ e ∈ k, e ≠ [] ∧ SLASH ∉ e := by
  induction k with
  | nil => simp
  | cons a k ih =>
    intro e he
    rcases List.mem_cons.mp he with h | h
    · subst h; exact ⟨hk.1.1, hk.1.2.2.1⟩
    · exact ih hk.2 e h

theorem cleanStep_of_kept (r : Bool) (k : List (List Nat)) (e : List Nat)
    (hk : Kept r (e :: k)) : cleanStep r k e = e :: k := by
  obtain ⟨⟨h1, h2, _, h4⟩, _⟩ := hk
  unfold cleanStep
  rw [if_neg (by simp [h1, h2])]
  split
  · rename_i h3
    obtain ⟨hr, hk2⟩ := h4 h3
    cases k with
    | nil => simp [hr, h3]
    | cons top below =>
      rcases hk2 with hk2 | hk2
      · simp at hk2
      · simp at hk2
        simp [hk2]
  · rfl

theorem foldl_reverse_kept (r : Bool) (k : List (List Nat)) (hk : Kept r k) :
    k.reverse.foldl (cleanStep r) [] = k := by
  induction k with
  | nil => rfl
  | cons e k ih =>
    rw [List.reverse_cons, List.foldl_append, ih hk.2]
    exact cleanStep_of_kept r k e hk

theorem kept_cleanElems (path : List Nat) :
    Kept (decide (path.head? = some SLASH)) ((Split path SLASH).foldl
      (cleanStep (decide (path.head? = some SLASH))) []) :=
  kept_foldl _ _ _ trivial (split_no_sep path SLASH)

theorem head_joinSlash (es : List (List Nat)) (hne : es ≠ [])
    (hs : ∀ e ∈ es, e ≠ [] ∧ SLASH ∉ e) : (joinSlash es).head? ≠ some SLASH := by
  cases es with
  | nil => exact absurd rfl hne
  | cons c cs =>
    obtain ⟨h1, h2⟩ := hs c (by simp)
    cases c with
    | nil => exact absurd rfl h1
    | cons x xs =>
      have hx : x ≠ SLASH := fun e => h2 (by simp [e])
      cases cs with
      | nil => simp [joinSlash, hx]
      | cons d ds => simp [joinSlash, hx]

theorem clean_rooted (path : List Nat) :
    ((Clean path).head? = some SLASH) ↔ (path.head? = some SLASH) := by
  unfold Clean
  by_cases h0 : path = []
  · subst h0; simp [DOT, SLASH]
  · rw [if_neg h0]
    by_cases hr : path.head? = some SLASH
    · rw [if_pos hr]; simp [hr]
    · rw [if_neg hr]
      split
      · simp only [hr, iff_false]
        decide
      · rename_i hne
        have hk := kept_cleanElems path
        have hm : ∀ e ∈ cleanElems path, e ≠ [] ∧ SLASH ∉ e := by
          intro e he
          unfold cleanElems at he
          exact kept_mem _ _ hk e (List.mem_reverse.mp he)
        have := head_joinSlash (cleanElems path) hne hm
        simp [this, hr]

theorem cleanElems_clean (path : List Nat) : cleanElems (Clean path) = cleanElems path := by
  have hroot := clean_rooted path
  have hk := kept_cleanElems path
  have hd : decide ((Clean path).head? = some SLASH) = decide (path.head? = some SLASH) := by
    simp only [decide_eq_decide]; exact hroot
  have hm : ∀ e ∈ cleanElems path, e ≠ [] ∧ SLASH ∉ e := by
    intro e he
    unfold cleanElems at he
    exact kept_mem _ _ hk e (List.mem_reverse.mp he)
  have hfold : (cleanElems path).foldl (cleanStep (decide (path.head? = some SLASH))) [] =
      (cleanElems path).reverse := by
    have := foldl_reverse_kept _ _ hk
    unfold cleanElems
    rw [List.reverse_reverse]
    exact this
  have key : (Split (Clean path) SLASH).foldl (cleanStep (decide (path.head? = some SLASH))) []
      = (cleanElems path).reverse := by
    unfold Clean
    by_cases h0 : path = []
    · subst h0; decide
    · rw [if_neg h0]
      by_cases hr : path.head? = some SLASH
      · rw [if_pos hr]
        by_cases he : cleanElems path = []
        · rw [he]; simp [joinSlash, Split, cleanStep]
        · have hs := split_joinSlash (cleanElems path) he (fun e h => (hm e h).2)
          have : Split (SLASH :: joinSlash (cleanElems path)) SLASH =
              [] :: cleanElems path := by
            simp [Split, hs]
          rw [this, List.foldl_cons]
          have : cleanStep (decide (path.head? = some SLASH)) [] [] = [] := by
            simp [cleanStep]
          rw [this, hfold]
      · rw [if_neg hr]
        by_cases he : cleanElems path = []
        · rw [if_pos he, he]
          simp [Split, cleanStep, DOT, SLASH]
        · rw [if_neg he, split_joinSlash (cleanElems path) he (fun e h => (hm e h).2), hfold]
  show ((Split (Clean path) SLASH).foldl (cleanStep (decide ((Clean path).head? = some SLASH)))
    []).reverse = cleanElems path
  rw [hd, key, List.reverse_reverse]

/-! ### joining a relative path without `..` stays within the directory -/

theorem foldl_cleanStep_no_dotdot (r : Bool) (l k : List (List Nat))
    (hl : [DOT, DOT] ∉ l) :
    ∃ added, l.foldl (cleanStep r) k = added ++ k ∧ [DOT, DOT] ∉ added := by
  induction l generalizing k with
  | nil => exact ⟨[], rfl, by simp⟩
  | cons e l ih =>
    have he : e ≠ [DOT, DOT] := fun h => hl (by simp [h])
    have hl2 : [DOT, DOT] ∉ l := fun h => hl (by simp [h])
    rw [List.foldl_cons]
    by_cases h0 : e = [] ∨ e = [DOT]
    · have : cleanStep r k e = k := by
        unfold cleanStep; rw [if_pos h0]
      rw [this]
      exact ih k hl2
    · have : cleanStep r k e = e :: k := by
        unfold cleanStep; rw [if_neg h0, if_neg he]
      rw [this]
      obtain ⟨added, h1, h2⟩ := ih (e :: k) hl2
      refine ⟨added ++ [e], by rw [h1]; simp, ?_⟩
      intro h
      rcases List.mem_append.mp h with h | h
      · exact h2 h
      · simp at h; exact he h.symm

theorem cleanElems_join (out rel : List Nat) (hout : out ≠ [])
    (hrel : [DOT, DOT] ∉ Split rel SLASH) :
    ∃ more, cleanElems (out ++ SLASH :: rel) = cleanElems out ++ more ∧ [DOT, DOT] ∉ more := by
  have hh : (out ++ SLASH :: rel).head? = out.head? := by
    cases out with
    | nil => exact absurd rfl hout
    | cons c cs => rfl
  unfold cleanElems
  rw [hh, split_append_sep, List.foldl_append]
  obtain ⟨added, h1, h2⟩ := foldl_cleanStep_no_dotdot (decide (out.head? = some SLASH))
    (Split rel SLASH) ((Split out SLASH).foldl (cleanStep (decide (out.head? = some SLASH))) []) hrel
  refine ⟨added.reverse, ?_, by simpa using h2⟩
  rw [h1, List.reverse_append]

theorem within_join (out rel : List Nat) (hout : out ≠ [])
    (hrel : [DOT, DOT] ∉ Split rel SLASH) : within out (Join out rel) = true := by
  unfold Join
  rw [if_pos hout]
  have hh : (out ++ SLASH :: rel).head? = out.head? := by
    cases out with
    | nil => exact absurd rfl hout
    | cons c cs => rfl
  obtain ⟨more, h1, h2⟩ := cleanElems_join out rel hout hrel
  unfold within
  rw [cleanElems_clean, h1]
  have hr : (out.head? = some SLASH) = ((Clean (out ++ SLASH :: rel)).head? = some SLASH) := by
    apply propext
    rw [clean_rooted, hh]
  simp [hr, h2]

theorem handleLoop_files_joined (fs : FileSys) (out : List Nat) :
    ∀ (k : Nat) (conn : List Nat) (s : Session), handleLoop fs out k conn = some s →
      ∀ f ∈ s.files, ∃ line rel size, line <:+: conn ∧
        decodeHeader line = .ok (rel, size) ∧ f.1 = Join out rel := by
  intro k
  induction k with
  | zero => intro conn s h; simp [handleLoop] at h
  | succ k ih =>
    intro conn s h
    cases hr : ReadString NL conn with
    | none =>
      rw [handleLoop_eof fs out k conn hr] at h
      simp only [Option.some.injEq] at h
      subst h
      simp [Session.stop]
    | some lr =>
      obtain ⟨line, rest⟩ := lr
      have hconn := readString_eq_append hr
      have hline : line <:+: conn := ⟨[], rest, by rw [hconn]; simp⟩
      cases hd : decodeHeader line with
      | error e =>
        rw [handleLoop_bad fs out k conn line rest e hr hd] at h
        simp only [Option.some.injEq] at h
        subst h
        simp [Session.stop]
      | ok ps =>
        obtain ⟨p, size⟩ := ps
        rw [handleLoop_ok fs out k conn line rest p size hr hd] at h
        split at h
        · simp only [Option.some.injEq] at h
          subst h
          simp [Session.stop]
        · split at h
          · simp only [Option.some.injEq] at h
            subst h
            simp [Session.stop]
          · split at h
            · simp only [Option.some.injEq] at h
              subst h
              intro f hf
              simp only [List.mem_singleton] at hf
              exact ⟨line, p, size, hline, hd, by rw [hf]⟩
            · cases hk : handleLoop fs out k (CopyN rest size).rest with
              | none => simp [hk] at h
              | some s2 =>
                simp only [hk, Option.map_some', Option.some.injEq] at h
                subst h
                intro f hf
                simp only [Session.after, List.mem_cons] at hf
                rcases hf with hf | hf
                · exact ⟨line, p, size, hline, hd, by rw [hf]⟩
                · obtain ⟨l2, rel, sz, hl2, hd2, hj⟩ := ih _ s2 hk f hf
                  refine ⟨l2, rel, sz, ?_, hd2, hj⟩
                  have h1 : (CopyN rest size).rest <:+: conn :=
                    List.IsInfix.trans (copyN_rest_suffix rest size).isInfix
                      ⟨line, [], by rw [hconn]; simp⟩
                  exact List.IsInfix.trans hl2 h1

theorem handleConnection_first_file (fs : FileSys) (out : List Nat) (fr : Frame)
    (rest : List Nat) (hw : fr.wellFormed) (ha : accepts fs out fr.path) :
    ∃ s, handleConnection fs out (fr.bytes ++ rest) = some s ∧
      s.files.head? = some (Join out fr.path, fr.payload) := by
  obtain ⟨s0, hs0⟩ := handleConnection_total fs out rest
  refine ⟨Session.after (Join out fr.path, fr.payload) s0, ?_, rfl⟩
  rw [handleConnection_frame fs out fr rest hw ha, hs0]
  rfl

/-! ## The claims -/

/-- C1 (session round trip). Take any sequence of files, each with a relative
path that has no colon, no newline and no leading white space (a non-empty path
without surrounding white space is such a path) and a content of arbitrary bytes
whose length is an `int64` file size, on a file system that lets each of them be
created. The stream the sender writes for them, `sendFile` after `sendFile`, read
by `handleConnection` up to the end of the stream, ends in success and writes
exactly these files, in the order sent, each at the output directory joined with
its relative path and holding exactly its content. The content is not
restricted: it may be empty and may hold newlines, colons or header-like text. -/
theorem session_round_trip (fs : FileSys) (out : List Nat)
    (files : List (List Nat × List Nat))
    (hf : ∀ f ∈ files, framable f) (ha : ∀ f ∈ files, accepts fs out f.1) :
    handleConnection fs out (sendFiles files) = some ⟨received out files, .finished⟩ := by
  have h := handleConnection_sendFiles fs out files [] hf ha
  rw [List.append_nil, handleConnection_of_no_newline fs out [] (by simp)] at h
  rw [h]
  simp [Session.afterAll, Session.stop]

/-- Instance of C1: two files, the first with a content that looks like a frame,
the second empty. -/
theorem session_round_trip_witness :
    (∀ f ∈ [(ascii "a.txt", ascii "b.txt:3\nxyz"), (ascii "sub/b.txt", [])], framable f) ∧
    (∀ f ∈ [(ascii "a.txt", ascii "b.txt:3\nxyz"), (ascii "sub/b.txt", [])],
      accepts FileSys.permissive (ascii "out") f.1) ∧
    handleConnection FileSys.permissive (ascii "out")
        (sendFiles [(ascii "a.txt", ascii "b.txt:3\nxyz"), (ascii "sub/b.txt", [])]) =
      some ⟨received (ascii "out") [(ascii "a.txt", ascii "b.txt:3\nxyz"), (ascii "sub/b.txt", [])],
        .finished⟩ :=
  ⟨by decide, by decide, session_round_trip _ _ _ (by decide) (by decide)⟩

/-- C2, counterexample. The relative path `a:b` has no newline, yet the header
line the sender writes for it, `a:b:3`, is split into three fields and rejected
as invalid metadata: no path is decoded and the session creates no file. -/
theorem colon_path_not_reconstructed :
    NL ∉ ascii "a:b" ∧
    decodeHeader (header (ascii "a:b") 3) = .error .invalidMetadata ∧
    handleConnection FileSys.permissive (ascii "out")
        (sendFile (ascii "a:b") (.file (ascii "a:b") (ascii "xyz"))) =
      some ⟨[], .invalidMetadata⟩ :=
  ⟨by decide, rfl, rfl⟩

/-- C2 as amended (path reconstruction). Let the sender frame a file whose
relative path has no newline. When the path has no colon and no leading white
space (and the length is an `int64` file size), the header line decodes to
exactly that path and that length, and the first file the receiver creates from
a stream that starts with the frame is the output directory joined with the
path, holding the content. When the path has a colon, it is not reconstructed:
the trimmed header line splits into three or more fields, the decoding gives
the invalid-metadata error, and a session that starts with the frame ends with
that error without creating a file. -/
theorem path_reconstruction (fs : FileSys) (out p content rest : List Nat)
    (hnl : NL ∉ p) :
    (COLON ∉ p → leadingSpace p = none → content.length < 2 ^ 63 → accepts fs out p →
      decodeHeader (header p content.length) = .ok (p, (content.length : Int)) ∧
      ∃ s, handleConnection fs out (sendFile p (.file p content) ++ rest) = some s ∧
        s.files.head? = some (Join out p, content)) ∧
    (COLON ∈ p →
      3 ≤ (Split (TrimSpace (header p content.length)) COLON).length ∧
      decodeHeader (header p content.length) = .error .invalidMetadata ∧
      handleConnection fs out (sendFile p (.file p content) ++ rest) =
        some ⟨[], .invalidMetadata⟩) := by
  constructor
  · intro hc hl hlen ha
    have hf : framable (p, content) := ⟨hc, hnl, hl, hlen⟩
    refine ⟨decodeHeader_header p _ hl hc hlen, ?_⟩
    have h := handleConnection_first_file fs out (frameOf (p, content)) rest
      (frameOf_wellFormed _ hf) ha
    rw [frameOf_bytes] at h
    exact h
  · intro hc
    obtain ⟨h3, hd⟩ := decodeHeader_colon_path p content.length hc
    refine ⟨h3, hd, ?_⟩
    have hr : ReadString NL (sendFile p (.file p content) ++ rest) =
        some (header p content.length, content ++ rest) := by
      have : sendFile p (.file p content) ++ rest = header p content.length ++ (content ++ rest) := by
        simp [sendFile]
      rw [this]
      exact readString_header _ _ _ hnl
    unfold handleConnection
    rw [handleLoop_bad fs out _ _ _ _ _ hr hd]
    rfl

/-- Instance of C2 as amended: a path with a directory and an inner blank is
reconstructed, a path with a directory and a colon is not. -/
theorem path_reconstruction_witness :
    NL ∉ ascii "sub/b c.txt" ∧ NL ∉ ascii "sub/12:30.txt" ∧
    (decodeHeader (header (ascii "sub/b c.txt") (ascii "hi").length) =
        .ok (ascii "sub/b c.txt", ((ascii "hi").length : Int)) ∧
      ∃ s, handleConnection FileSys.permissive (ascii "out")
          (sendFile (ascii "sub/b c.txt") (.file (ascii "sub/b c.txt") (ascii "hi")) ++
            ascii "x:0\n") = some s ∧
        s.files.head? = some (Join (ascii "out") (ascii "sub/b c.txt"), ascii "hi")) ∧
    (3 ≤ (Split (TrimSpace (header (ascii "sub/12:30.txt") (ascii "hi").length)) COLON).length ∧
      decodeHeader (header (ascii "sub/12:30.txt") (ascii "hi").length) =
        .error .invalidMetadata ∧
      handleConnection FileSys.permissive (ascii "out")
          (sendFile (ascii "sub/12:30.txt") (.file (ascii "sub/12:30.txt") (ascii "hi")) ++
            ascii "x:0\n") = some ⟨[], .invalidMetadata⟩) :=
  ⟨by decide, by decide,
    (path_reconstruction FileSys.permissive (ascii "out") (ascii "sub/b c.txt") (ascii "hi")
      (ascii "x:0\n") (by decide)).1 (by decide) (by decide) (by decide) (by decide),
    (path_reconstruction FileSys.permissive (ascii "out") (ascii "sub/12:30.txt") (ascii "hi")
      (ascii "x:0\n") (by decide)).2 (by decide)⟩

/-- C3 (malformed header rejection). After any sequence of complete well-formed
frames, a header line that, trimmed, has no colon or more than one colon, or
whose text after its single colon is not a decimal integer, ends the session
with a reported error (invalid metadata, respectively invalid size, never the
success outcome). The files written are exactly those of the frames before it:
no file is created for the malformed frame, and the result does not depend on
the bytes that follow the line, none of which is read as a frame. -/
theorem malformed_header_rejected (fs : FileSys) (out : List Nat) (frames : List Frame)
    (line rest : List Nat)
    (hw : ∀ fr ∈ frames, fr.wellFormed) (ha : ∀ fr ∈ frames, accepts fs out fr.path)
    (hnl : NL ∉ line) (hm : malformed (line ++ [NL]) = true) :
    handleConnection fs out (streamOf frames ++ (line ++ NL :: rest)) =
        some ⟨written out frames, malformedError (line ++ [NL])⟩ ∧
      malformedError (line ++ [NL]) ≠ .finished := by
  constructor
  · rw [handleConnection_frames fs out frames _ hw ha]
    have hr := readString_append line rest hnl
    unfold handleConnection
    rw [handleLoop_bad fs out _ _ _ _ _ hr (decodeHeader_malformed _ hm)]
    simp [Session.afterAll, Session.stop]
  · unfold malformedError
    split <;> simp

/-- Instance of C3: the line `a:b:3` after one frame, followed by bytes that
hold a well-formed frame. -/
theorem malformed_header_rejected_witness :
    (∀ fr ∈ [frameOf (ascii "a.txt", ascii "hi")], fr.wellFormed) ∧
    (∀ fr ∈ [frameOf (ascii "a.txt", ascii "hi")],
      accepts FileSys.permissive (ascii "out") fr.path) ∧
    NL ∉ ascii "a:b:3" ∧ malformed (ascii "a:b:3" ++ [NL]) = true ∧
    (handleConnection FileSys.permissive (ascii "out")
        (streamOf [frameOf (ascii "a.txt", ascii "hi")] ++
          (ascii "a:b:3" ++ NL :: ascii "xyzc:1\nq")) =
        some ⟨written (ascii "out") [frameOf (ascii "a.txt", ascii "hi")],
          malformedError (ascii "a:b:3" ++ [NL])⟩ ∧
      malformedError (ascii "a:b:3" ++ [NL]) ≠ .finished) :=
  ⟨by decide, by decide, by decide, by decide,
    malformed_header_rejected _ _ _ _ _ (by decide) (by decide) (by decide) (by decide)⟩

/-- C4 (short stream). After any sequence of complete well-formed frames, let a
header line decode to a path and a length `size`, and let the stream end after
fewer than `size` payload bytes (possibly none). Then the session ends, and not
in success. When the file can be created the outcome is the write error and the
file is left with the bytes that did arrive. -/
theorem short_stream_fails (fs : FileSys) (out : List Nat) (frames : List Frame)
    (line p payload : List Nat) (size : Int)
    (hw : ∀ fr ∈ frames, fr.wellFormed) (ha : ∀ fr ∈ frames, accepts fs out fr.path)
    (hnl : NL ∉ line) (hd : (decodeHeader (line ++ [NL])).toOption = some (p, size))
    (hk : (payload.length : Int) < size) :
    ∃ s, handleConnection fs out (streamOf frames ++ (line ++ NL :: payload)) = some s ∧
      s.outcome ≠ .finished ∧
      (accepts fs out p → s = ⟨written out frames ++ [(Join out p, payload)], .writeError⟩) := by
  rw [handleConnection_frames fs out frames _ hw ha]
  have hr := readString_append line payload hnl
  unfold handleConnection
  rw [handleLoop_ok fs out _ _ _ _ p size hr (toOption_eq_some hd), copyN_short payload size hk]
  by_cases h1 : fs.mkdirAll (Dir (Join out p)) = false
  · refine ⟨_, by rw [if_pos h1]; rfl, by simp [Session.afterAll, Session.stop], ?_⟩
    intro hacc
    rw [hacc.1] at h1
    cases h1
  · by_cases h2 : fs.create (Join out p) = false
    · refine ⟨_, by rw [if_neg h1, if_pos h2]; rfl, by simp [Session.afterAll, Session.stop], ?_⟩
      intro hacc
      rw [hacc.2] at h2
      cases h2
    · refine ⟨_, by rw [if_neg h1, if_neg h2]; rfl, by simp [Session.afterAll], ?_⟩
      intro _
      simp [Session.afterAll]

/-- Instance of C4: five bytes declared, two delivered. -/
theorem short_stream_fails_witness :
    (∀ fr ∈ [frameOf (ascii "a.txt", ascii "hi")], fr.wellFormed) ∧
    (∀ fr ∈ [frameOf (ascii "a.txt", ascii "hi")],
      accepts FileSys.permissive (ascii "out") fr.path) ∧
    NL ∉ ascii "b.txt:5" ∧
    (decodeHeader (ascii "b.txt:5" ++ [NL])).toOption = some (ascii "b.txt", 5) ∧
    (((ascii "xy").length : Int) < 5) ∧
    ∃ s, handleConnection FileSys.permissive (ascii "out")
        (streamOf [frameOf (ascii "a.txt", ascii "hi")] ++
          (ascii "b.txt:5" ++ NL :: ascii "xy")) = some s ∧
      s.outcome ≠ .finished ∧
      (accepts FileSys.permissive (ascii "out") (ascii "b.txt") →
        s = ⟨written (ascii "out") [frameOf (ascii "a.txt", ascii "hi")] ++
          [(Join (ascii "out") (ascii "b.txt"), ascii "xy")], .writeError⟩) :=
  ⟨by decide, by decide, by decide, by decide, by decide,
    short_stream_fails _ _ _ _ (ascii "b.txt") _ 5 (by decide) (by decide) (by decide) (by decide) (by decide)⟩

/-- C5, counterexample. With the output directory `received_data`, the frame
`../x:2` followed by `hi` is accepted: the session ends in success and has
created the file `x`, which does not lie within `received_data`. -/
theorem dotdot_escapes_output_root :
    handleConnection FileSys.permissive (ascii "received_data") (ascii "../x:2\nhi") =
      some ⟨[(ascii "x", ascii "hi")], .finished⟩ ∧
    within (ascii "received_data") (ascii "x") = false :=
  ⟨by decide, by decide⟩

/-- C5 as amended (files are created at the joined path, unchecked). Let the
output directory be non-empty. For every stream, each file `handleConnection`
creates is at `filepath.Join` of the output directory and the relative path
decoded from a header line of the stream, and it lies at or beneath the output
directory whenever that relative path has no `..` element. No relative path is
rejected: for every well-formed frame that the file system lets be created,
whatever its path, the file is created at the joined destination. -/
theorem created_files_joined (fs : FileSys) (out : List Nat) (hout : out ≠ []) :
    (∀ (conn : List Nat) (s : Session), handleConnection fs out conn = some s →
      ∀ f ∈ s.files, ∃ line rel size, line <:+: conn ∧
        decodeHeader line = .ok (rel, size) ∧ f.1 = Join out rel ∧
        ([DOT, DOT] ∉ Split rel SLASH → within out f.1 = true)) ∧
    (∀ (fr : Frame) (rest : List Nat), fr.wellFormed → accepts fs out fr.path →
      ∃ s, handleConnection fs out (fr.bytes ++ rest) = some s ∧
        s.files.head? = some (Join out fr.path, fr.payload)) := by
  constructor
  · intro conn s h f hf
    obtain ⟨line, rel, size, hl, hd, hrel⟩ := handleLoop_files_joined fs out _ conn s h f hf
    exact ⟨line, rel, size, hl, hd, hrel,
      fun hdd => by rw [hrel]; exact within_join out rel hout hdd⟩
  · intro fr rest hw ha
    exact handleConnection_first_file fs out fr rest hw ha

/-- Instance of C5 as amended: a file created beneath the output directory, and
a frame whose path climbs out of it through `..`. -/
theorem created_files_joined_witness :
    ascii "out" ≠ [] ∧
    (∃ line rel size, line <:+: ascii "a/./b.txt:2\nhi../x:0\n" ∧
      decodeHeader line = .ok (rel, size) ∧
      ascii "out/a/b.txt" = Join (ascii "out") rel ∧
      ([DOT, DOT] ∉ Split rel SLASH → within (ascii "out") (ascii "out/a/b.txt") = true)) ∧
    (∃ s, handleConnection FileSys.permissive (ascii "out")
        ((⟨ascii "../x:2", ascii "../x", ascii "hi"⟩ : Frame).bytes ++ ascii "c:0\n") = some s ∧
      s.files.head? = some (Join (ascii "out") (ascii "../x"), ascii "hi")) :=
  ⟨by decide,
    (created_files_joined FileSys.permissive (ascii "out") (by decide)).1
      (ascii "a/./b.txt:2\nhi../x:0\n")
      ⟨[(ascii "out/a/b.txt", ascii "hi"), (ascii "x", [])], .finished⟩ (by decide)
      (ascii "out/a/b.txt", ascii "hi") (by decide),
    (created_files_joined FileSys.permissive (ascii "out") (by decide)).2
      ⟨ascii "../x:2", ascii "../x", ascii "hi"⟩ (ascii "c:0\n") (by decide) (by decide)⟩

/-- C7, counterexample. One well-formed frame followed by the terminator line
`DONE`: the file of the frame is written, but the session ends with the
invalid-metadata error, not in success. -/
theorem done_line_not_accepted :
    (frameOf (ascii "a.txt", ascii "hi")).wellFormed ∧
    handleConnection FileSys.permissive (ascii "out")
        (streamOf [frameOf (ascii "a.txt", ascii "hi")] ++ ascii "DONE\n") =
      some ⟨written (ascii "out") [frameOf (ascii "a.txt", ascii "hi")], .invalidMetadata⟩ ∧
    handleConnection FileSys.permissive (ascii "out")
        (streamOf [frameOf (ascii "a.txt", ascii "hi")] ++ ascii "DONE\n") ≠
      some ⟨written (ascii "out") [frameOf (ascii "a.txt", ascii "hi")], .finished⟩ :=
  ⟨by decide, by decide, by decide⟩

/-- C7 as amended (end of session). For every sequence of complete well-formed
frames, `handleConnection` ends in success when the stream ends right after the
last frame and writes exactly the files of the frames. When the terminator line
`DONE` follows the last frame, exactly the same files are written, but the
session ends with the invalid-metadata error: the line is read as a header. -/
theorem end_of_session (fs : FileSys) (out : List Nat) (frames : List Frame)
    (hw : ∀ fr ∈ frames, fr.wellFormed) (ha : ∀ fr ∈ frames, accepts fs out fr.path) :
    handleConnection fs out (streamOf frames) = some ⟨written out frames, .finished⟩ ∧
    handleConnection fs out (streamOf frames ++ ascii "DONE\n") =
      some ⟨written out frames, .invalidMetadata⟩ := by
  constructor
  · have h := handleConnection_frames fs out frames [] hw ha
    rw [List.append_nil, handleConnection_of_no_newline fs out [] (by simp)] at h
    rw [h]
    simp [Session.afterAll, Session.stop]
  · rw [handleConnection_frames fs out frames _ hw ha]
    have hr : ReadString NL (ascii "DONE\n") = some (ascii "DONE\n", []) := by decide
    have hd : decodeHeader (ascii "DONE\n") = .error .invalidMetadata := rfl
    unfold handleConnection
    rw [handleLoop_bad fs out _ _ _ _ _ hr hd]
    simp [Session.afterAll, Session.stop]

/-- Instance of C7 as amended: a frame as the sender writes it and a frame with
white space around its header line and a signed length. -/
theorem end_of_session_witness :
    (∀ fr ∈ [frameOf (ascii "a.txt", ascii "hi"), ⟨ascii " sub/b.txt :+0\r", ascii "sub/b.txt ", []⟩],
      fr.wellFormed) ∧
    (∀ fr ∈ [frameOf (ascii "a.txt", ascii "hi"), ⟨ascii " sub/b.txt :+0\r", ascii "sub/b.txt ", []⟩],
      accepts FileSys.permissive (ascii "out") fr.path) ∧
    (handleConnection FileSys.permissive (ascii "out")
        (streamOf [frameOf (ascii "a.txt", ascii "hi"),
          ⟨ascii " sub/b.txt :+0\r", ascii "sub/b.txt ", []⟩]) =
      some ⟨written (ascii "out") [frameOf (ascii "a.txt", ascii "hi"),
          ⟨ascii " sub/b.txt :+0\r", ascii "sub/b.txt ", []⟩], .finished⟩ ∧
    handleConnection FileSys.permissive (ascii "out")
        (streamOf [frameOf (ascii "a.txt", ascii "hi"),
          ⟨ascii " sub/b.txt :+0\r", ascii "sub/b.txt ", []⟩] ++ ascii "DONE\n") =
      some ⟨written (ascii "out") [frameOf (ascii "a.txt", ascii "hi"),
          ⟨ascii " sub/b.txt :+0\r", ascii "sub/b.txt ", []⟩], .invalidMetadata⟩) :=
  ⟨by decide, by decide, end_of_session _ _ _ (by decide) (by decide)⟩

/-- C8, the code at the failing input. The length field `-5` parses to the
integer -5, and the stream `x:-5` followed by `hello` makes the session create
the empty file `out/x` and end in success, without any invalid-size error. -/
theorem negative_length_accepted :
    ParseInt (ascii "-5") = some (-5) ∧
    handleConnection FileSys.permissive (ascii "out") (ascii "x:-5\nhello") =
      some ⟨[(ascii "out/x", [])], .finished⟩ :=
  ⟨by decide, by decide⟩

/-- C9, the code at the failing input. The header line `x:-5` is accepted by the
decoding of `handleConnection`, with relative path `x` and length -5, while the
decoding that splits its text once at the first colon and parses everything
after it as a base-10 non-negative integer rejects it: the two decodings do not
accept the same lines. -/
theorem signed_length_decodings_differ :
    decodeHeader (ascii "x:-5\n") = .ok (ascii "x", -5) ∧
    TrimSpace (ascii "x:-5\n") = ascii "x:-5" ∧
    splitFirstColon (ascii "x:-5") = some (ascii "x", ascii "-5") ∧
    decodeHeaderFirstColon (ascii "x:-5") = none :=
  ⟨rfl, by decide, by decide, by decide⟩

/-- C10 (truncated trailing header). For every stream made of complete
well-formed frames followed by a tail without newline (a header line cut off
before its newline), `handleConnection` ends in success and writes exactly the
files of the complete frames; the tail is dropped and no error is reported. -/
theorem truncated_trailing_header (fs : FileSys) (out : List Nat) (frames : List Frame)
    (tail : List Nat)
    (hw : ∀ fr ∈ frames, fr.wellFormed) (ha : ∀ fr ∈ frames, accepts fs out fr.path)
    (hnl : NL ∉ tail) :
    handleConnection fs out (streamOf frames ++ tail) =
      some ⟨written out frames, .finished⟩ := by
  rw [handleConnection_frames fs out frames tail hw ha,
    handleConnection_of_no_newline fs out tail hnl]
  simp [Session.afterAll, Session.stop]

/-- Instance of C10: one frame followed by the cut-off header `sub/b.txt:1`. -/
theorem truncated_trailing_header_witness :
    (∀ fr ∈ [frameOf (ascii "a.txt", ascii "hi")], fr.wellFormed) ∧
    (∀ fr ∈ [frameOf (ascii "a.txt", ascii "hi")],
      accepts FileSys.permissive (ascii "out") fr.path) ∧
    NL ∉ ascii "sub/b.txt:1" ∧
    handleConnection FileSys.permissive (ascii "out")
        (streamOf [frameOf (ascii "a.txt", ascii "hi")] ++ ascii "sub/b.txt:1") =
      some ⟨written (ascii "out") [frameOf (ascii "a.txt", ascii "hi")], .finished⟩ :=
  ⟨by decide, by decide, by decide,
    truncated_trailing_header _ _ _ _ (by decide) (by decide) (by decide)⟩

end Transfer
